import Mathlib

/-!
# Verification of the ESP32-CAM-EYES light-source localization pipeline

Shallow embedding of the light-source localization pipeline of
`ESP32-CAM-EYES.ino`: binarization of an RGB565 frame, two-pass
connected-component labeling with a union-find structure over provisional
labels, per-component moment accumulation in 32-bit accumulators, a
circularity-based candidate selection, and coordinate normalization.

Modeling conventions:
* the pixel buffer is a `List Nat` of 16-bit values, row-major;
* `uint16_t`/`uint32_t` arithmetic is `Nat` with an explicit `% 2 ^ 32`
  where the source relies on 32-bit accumulators;
* the `parent` global of the disjoint-set union is a total map
  `Nat → Nat`; the recursive `dsu_find` with path compression is given
  explicit fuel (`MAX_LABELS` suffices because parent chains strictly
  decrease);
* the selector's `float` computation of circularity is rendered in exact
  arithmetic over `ℚ`; the test `circularity >= 0.5f` is the decidable
  algebraic condition shown (in the theorems below) to be equivalent to
  `Real.sqrt (lambda_min / lambda_max) ≥ 1/2` with the source's guard
  `lambda_max > 0`;
* `find_light_source` takes the incoming global `parent` state and the
  caller's result struct explicitly, and returns the status code, the
  result struct after the call, the buffer after the call, and the final
  `parent` state.
-/

namespace EyesModel

/-- `MAX_LABELS` from the source: capacity of the label table. -/
def MAX_LABELS : Nat := 256

/-- `PIXFORMAT_RGB565` format tag (only equality with it matters). -/
def PIXFORMAT_RGB565 : Nat := 0

/-- `camera_fb_t`: format tag, width, height and the pixel buffer
(16-bit values, row-major). -/
structure camera_fb_t where
  format : Nat
  width : Nat
  height : Nat
  buf : List Nat
deriving DecidableEq

/-- `light_source_result_t`: normalized centroid and blob size; the float
fields are rendered in exact arithmetic over `ℚ`. -/
structure light_source_result_t where
  x : ℚ
  y : ℚ
  pixel_count : Nat
deriving DecidableEq

/-- `blob_info_t`: per-blob statistics; the `uint32_t` accumulators are
kept reduced modulo `2 ^ 32` by the aggregation step. -/
structure blob_info_t where
  id : Nat
  pixel_count : Nat
  sum_x : Nat
  sum_y : Nat
  sum_x2 : Nat
  sum_y2 : Nat
  sum_xy : Nat
deriving DecidableEq

/-- The all-zero `blob_info_t` (the source zero-initializes the table). -/
def blobZero : blob_info_t := ⟨0, 0, 0, 0, 0, 0, 0⟩

/-! ## Pixel decoding and binarization (source lines 212–239) -/

/-- `*((uint8_t*)(pixels+i))`: the low-order byte of the stored 16-bit
value (little-endian target). -/
def low_byte (v : Nat) : Nat := v % 256

/-- `*(((uint8_t*)(pixels+i))+1)`: the high-order byte of the stored
16-bit value. -/
def high_byte (v : Nat) : Nat := v / 256 % 256

/-- `uint8_t r = low_byte & 0xF8;` -/
def decode_r (v : Nat) : Nat := low_byte v &&& 0xF8

/-- `uint8_t g = (low_byte & 0x07) << 5 | (high_byte & 0xE0) >> 3;` -/
def decode_g (v : Nat) : Nat :=
  ((low_byte v &&& 0x07) <<< 5) ||| ((high_byte v &&& 0xE0) >>> 3)

/-- `uint8_t b = (high_byte & 0x1F) << 3;` -/
def decode_b (v : Nat) : Nat := (high_byte v &&& 0x1F) <<< 3

/-- The brightness test `(r > 230) && (g > 230) && (b > 230)`. -/
def isForeground (v : Nat) : Bool :=
  decide (230 < decode_r v) && decide (230 < decode_g v)
    && decide (230 < decode_b v)

/-- One binarization write: foreground pixels become `0xFFFF`, background
pixels become `0`. -/
def binPix (v : Nat) : Nat := if isForeground v then 0xFFFF else 0

/-- Read of `pixels[i]` (out-of-range reads return 0; all verified runs
stay in bounds). -/
def getPix (pixels : List Nat) (i : Nat) : Nat := pixels.getD i 0

/-- Binarization loop: `for (i = 0; i < width*height; i++) pixels[i] = …`,
in place on the buffer. -/
def binarize (w h : Nat) (buf : List Nat) : List Nat :=
  (List.range (w * h)).foldl (fun px i => px.set i (binPix (getPix px i))) buf

/-! ## Disjoint-set union (source lines 148–189) -/

/-- `dsu_init`: each label is its own parent. -/
def dsu_init : Nat → Nat := fun i => i

/-- Fueled version of the recursive `dsu_find` with path compression;
returns the root together with the updated parent map.  Parent chains
strictly decrease (the union policy parents the smaller label), so fuel
`MAX_LABELS` makes this total on all reachable states. -/
def dsu_findAux : Nat → (Nat → Nat) → Nat → Nat × (Nat → Nat)
  | 0, p, i => (i, p)
  | fuel + 1, p, i =>
    if p i = i then (i, p)
    else
      let r := dsu_findAux fuel p (p i)
      (r.1, fun j => if j = i then r.1 else r.2 j)

/-- `dsu_find`: root of the set containing `i`, with path compression. -/
def dsu_find (p : Nat → Nat) (i : Nat) : Nat × (Nat → Nat) :=
  dsu_findAux MAX_LABELS p i

/-- `dsu_unite`: unite the sets of `i` and `j`; the smaller root becomes
the parent of the larger. -/
def dsu_unite (p : Nat → Nat) (i j : Nat) : Nat → Nat :=
  let fi := dsu_find p i
  let fj := dsu_find fi.2 j
  let p2 := fj.2
  if fi.1 ≠ fj.1 then
    if fi.1 < fj.1 then (fun k => if k = fj.1 then fi.1 else p2 k)
    else (fun k => if k = fi.1 then fj.1 else p2 k)
  else p2

/-! ## First pass: labeling (source lines 241–272) -/

/-- State of the first pass: the pixel buffer, the DSU parent map and the
`next_label` counter. -/
structure LabelState where
  pixels : List Nat
  parent : Nat → Nat
  next_label : Nat

/-- Body of the first-pass loop at coordinates `(x, y)`. -/
def labelStep (w : Nat) (s : LabelState) (x y : Nat) : LabelState :=
  let i := y * w + x
  if getPix s.pixels i = 0xFFFF then
    let top := if 0 < y then getPix s.pixels (i - w) else 0
    let left := if 0 < x then getPix s.pixels (i - 1) else 0
    if top = 0 ∧ left = 0 then
      if s.next_label < MAX_LABELS then
        { s with pixels := s.pixels.set i s.next_label,
                 next_label := s.next_label + 1 }
      else
        { s with pixels := s.pixels.set i 0 }
    else if 0 < top ∧ left = 0 then
      { s with pixels := s.pixels.set i top }
    else if top = 0 ∧ 0 < left then
      { s with pixels := s.pixels.set i left }
    else
      let p' := if top ≠ left then dsu_unite s.parent top left else s.parent
      { s with pixels := s.pixels.set i (if top < left then top else left),
               parent := p' }
  else s

/-- First pass: `dsu_init()`, `next_label = 1`, then the row-major double
loop of `labelStep`. -/
def pass1 (w h : Nat) (bin : List Nat) : LabelState :=
  (List.range h).foldl
    (fun s y => (List.range w).foldl (fun s x => labelStep w s x y) s)
    ⟨bin, dsu_init, 1⟩

/-! ## Second pass: label resolution and moment accumulation
(source lines 274–294) -/

/-- State of the second pass: buffer, parent map and the blob table. -/
structure AggState where
  pixels : List Nat
  parent : Nat → Nat
  blobs : Nat → blob_info_t

/-- Body of the second-pass loop at `(x, y)`: resolve the pixel's label to
its root, write the root back, and accumulate the moment statistics in the
32-bit accumulators. -/
def aggStep (w : Nat) (s : AggState) (x y : Nat) : AggState :=
  let i := y * w + x
  let v := getPix s.pixels i
  if 0 < v then
    let f := dsu_find s.parent v
    let b := s.blobs f.1
    let b' : blob_info_t :=
      { id := if b.id = 0 then f.1 else b.id,
        pixel_count := b.pixel_count + 1,
        sum_x := (b.sum_x + x) % 2 ^ 32,
        sum_y := (b.sum_y + y) % 2 ^ 32,
        sum_x2 := (b.sum_x2 + x * x) % 2 ^ 32,
        sum_y2 := (b.sum_y2 + y * y) % 2 ^ 32,
        sum_xy := (b.sum_xy + x * y) % 2 ^ 32 }
    { pixels := s.pixels.set i f.1,
      parent := f.2,
      blobs := fun k => if k = f.1 then b' else s.blobs k }
  else s

/-- Second pass over the buffer produced by the first pass. -/
def pass2 (w h : Nat) (s1 : LabelState) : AggState :=
  (List.range h).foldl
    (fun s y => (List.range w).foldl (fun s x => aggStep w s x y) s)
    ⟨s1.pixels, s1.parent, fun _ => blobZero⟩

/-- Modelled from the spec: the aggregation step with exact (unbounded)
moment accumulators — the mathematical sums over the blob's pixel
coordinates that the spec says the 32-bit accumulators hold; identical to
`aggStep` except that the sums are not reduced modulo `2 ^ 32`. -/
def aggStepE (w : Nat) (s : AggState) (x y : Nat) : AggState :=
  let i := y * w + x
  let v := getPix s.pixels i
  if 0 < v then
    let f := dsu_find s.parent v
    let b := s.blobs f.1
    let b' : blob_info_t :=
      { id := if b.id = 0 then f.1 else b.id,
        pixel_count := b.pixel_count + 1,
        sum_x := b.sum_x + x,
        sum_y := b.sum_y + y,
        sum_x2 := b.sum_x2 + x * x,
        sum_y2 := b.sum_y2 + y * y,
        sum_xy := b.sum_xy + x * y }
    { pixels := s.pixels.set i f.1,
      parent := f.2,
      blobs := fun k => if k = f.1 then b' else s.blobs k }
  else s

/-- Second pass with exact accumulators (specification-side reference). -/
def pass2E (w h : Nat) (s1 : LabelState) : AggState :=
  (List.range h).foldl
    (fun s y => (List.range w).foldl (fun s x => aggStepE w s x y) s)
    ⟨s1.pixels, s1.parent, fun _ => blobZero⟩

/-- Coupled invariant between the 32-bit and the exact aggregation passes
after `n` raster steps: shared buffer and forest, equal counts and ids,
each 32-bit accumulator is the exact one reduced modulo `2 ^ 32`, and the
exact accumulators obey the per-coordinate bounds. -/
def AggInv (w h n : Nat) (s sE : AggState) : Prop :=
  s.pixels = sE.pixels ∧ s.parent = sE.parent ∧
  ∀ k, (s.blobs k).id = (sE.blobs k).id ∧
    (s.blobs k).pixel_count = (sE.blobs k).pixel_count ∧
    (s.blobs k).sum_x = (sE.blobs k).sum_x % 2 ^ 32 ∧
    (s.blobs k).sum_y = (sE.blobs k).sum_y % 2 ^ 32 ∧
    (s.blobs k).sum_x2 = (sE.blobs k).sum_x2 % 2 ^ 32 ∧
    (s.blobs k).sum_y2 = (sE.blobs k).sum_y2 % 2 ^ 32 ∧
    (s.blobs k).sum_xy = (sE.blobs k).sum_xy % 2 ^ 32 ∧
    (sE.blobs k).pixel_count ≤ n ∧
    (sE.blobs k).sum_x ≤ (sE.blobs k).pixel_count * (w - 1) ∧
    (sE.blobs k).sum_y ≤ (sE.blobs k).pixel_count * (h - 1) ∧
    (sE.blobs k).sum_x2 ≤ (sE.blobs k).pixel_count * ((w - 1) * (w - 1)) ∧
    (sE.blobs k).sum_y2 ≤ (sE.blobs k).pixel_count * ((h - 1) * (h - 1)) ∧
    (sE.blobs k).sum_xy ≤ (sE.blobs k).pixel_count * ((w - 1) * (h - 1))

/-! ## Candidate selection (source lines 296–333) -/

/-- `cx·Σx` etc. are formed over `ℚ`; `mu_xx = Σx² − (Σx/N)·Σx`. -/
def mu_xx (b : blob_info_t) : ℚ :=
  (b.sum_x2 : ℚ) - ((b.sum_x : ℚ) / (b.pixel_count : ℚ)) * (b.sum_x : ℚ)

/-- `mu_yy = Σy² − (Σy/N)·Σy`. -/
def mu_yy (b : blob_info_t) : ℚ :=
  (b.sum_y2 : ℚ) - ((b.sum_y : ℚ) / (b.pixel_count : ℚ)) * (b.sum_y : ℚ)

/-- `mu_xy = Σxy − (Σx/N)·Σy`. -/
def mu_xy (b : blob_info_t) : ℚ :=
  (b.sum_xy : ℚ) - ((b.sum_x : ℚ) / (b.pixel_count : ℚ)) * (b.sum_y : ℚ)

/-- `A = mu_xx + mu_yy`, the trace of the covariance matrix. -/
def covA (b : blob_info_t) : ℚ := mu_xx b + mu_yy b

/-- `(mu_xx − mu_yy)² + 4·mu_xy²`, the discriminant under the square root
in `B = sqrtf(…)`. -/
def covD (b : blob_info_t) : ℚ := (mu_xx b - mu_yy b) ^ 2 + 4 * mu_xy b ^ 2

/-- Exact-arithmetic rendering of the source's circularity test
`circularity >= 0.5f` where
`circularity = (lambda_max > 0) ? sqrtf(lambda_min / lambda_max) : 0`:
the first conjunct is `lambda_max > 0` (i.e. `A + sqrt D > 0`), the second
is `sqrt(lambda_min/lambda_max) ≥ 1/2` (i.e. `3·A ≥ 5·sqrt D`), both made
decidable by squaring.  The selector theorems prove this equivalent to the
`Real.sqrt` formulation. -/
def circOK (b : blob_info_t) : Bool :=
  (decide (0 < covA b) || decide (covA b ^ 2 < covD b))
    && (decide (0 ≤ covA b) && decide (25 * covD b ≤ 9 * covA b ^ 2))

/-- The selector's per-blob guard:
`blobs[i].id != 0 && blobs[i].pixel_count >= min_blob_size` together with
the circularity acceptance. -/
def blobAccept (b : blob_info_t) : Bool :=
  decide (b.id ≠ 0) && decide (3 ≤ b.pixel_count) && circOK b

/-- One iteration of the best-blob loop, carrying
`(best_blob_index, max_pixel_count)`. -/
def selStep (blobs : Nat → blob_info_t) (acc : Int × Nat) (i : Nat) :
    Int × Nat :=
  if blobAccept (blobs i) then
    if acc.2 < (blobs i).pixel_count then (Int.ofNat i, (blobs i).pixel_count)
    else acc
  else acc

/-- `for (i = 1; i < next_label; i++) …` with
`best_blob_index = -1, max_pixel_count = 0` initially. -/
def selectBest (blobs : Nat → blob_info_t) (next_label : Nat) : Int × Nat :=
  (List.range' 1 (next_label - 1)).foldl (selStep blobs) (-1, 0)

/-! ## `find_light_source` (source lines 202–367) -/

/-- Outcome of a `find_light_source` call: the returned status code, the
caller's result struct after the call, the pixel buffer after the call and
the global `parent` state after the call. -/
structure FLSOut where
  ret : Int
  result : light_source_result_t
  buf : List Nat
  parent : Nat → Nat

/-- `find_light_source(fb, result)`: `parent0` is the incoming state of
the global `parent` array and `resIn` the incoming contents of the
caller's result struct. -/
def find_light_source (parent0 : Nat → Nat) (resIn : light_source_result_t)
    (fb : camera_fb_t) : FLSOut :=
  if fb.format ≠ PIXFORMAT_RGB565 then ⟨-1, resIn, fb.buf, parent0⟩
  else
    let w := fb.width
    let h := fb.height
    let s1 := pass1 w h (binarize w h fb.buf)
    let s2 := pass2 w h s1
    let best := selectBest s2.blobs s1.next_label
    if best.1 = -1 then
      ⟨-1, { x := 0, y := 0, pixel_count := 0 }, s2.pixels, s2.parent⟩
    else
      let b := s2.blobs best.1.toNat
      let res_x := b.sum_x / b.pixel_count
      let res_y := b.sum_y / b.pixel_count
      ⟨0,
       { x := ((res_x : ℚ) / (w : ℚ)) * 2 - 1,
         y := ((res_y : ℚ) / (h : ℚ)) * 2 - 1,
         pixel_count := b.pixel_count },
       s2.pixels, s2.parent⟩

/-! ## Spec-side definitions -/

/-- Modelled from the spec: the 5-bit red field of the RGB565 encoding,
i.e. the top five bits of the first byte of the pixel (byte layout
`RRRRRGGG GGGBBBBB`). -/
def fieldR5 (v : Nat) : Nat := v % 256 / 8

/-- Modelled from the spec: the 6-bit green field, i.e. the low three bits
of the first byte followed by the top three bits of the second byte. -/
def fieldG6 (v : Nat) : Nat := v % 256 % 8 * 8 + v / 256 % 256 / 32

/-- Modelled from the spec: the 5-bit blue field, i.e. the low five bits
of the second byte. -/
def fieldB5 (v : Nat) : Nat := v / 256 % 256 % 32

/-- The spec's circularity acceptance formula over the reals:
`sqrt(lambda_min / lambda_max) ≥ 1/2`, with the circularity taken to be 0
when `lambda_max ≤ 0`, where `lambda_max/min = (A ± sqrt D) / 2` for the
trace `A` and discriminant `D` of the covariance matrix. -/
def specCircAccept (b : blob_info_t) : Prop :=
  (1 / 2 : ℝ) ≤
    (if 0 < ((covA b : ℝ) + Real.sqrt (covD b)) / 2 then
      Real.sqrt ((((covA b : ℝ) - Real.sqrt (covD b)) / 2) /
        (((covA b : ℝ) + Real.sqrt (covD b)) / 2))
    else 0)

/-- Root of `i` in a parent map, without path compression
(specification-side view of `dsu_find`). -/
def rootAux : Nat → (Nat → Nat) → Nat → Nat
  | 0, _, i => i
  | fuel + 1, p, i => if p i = i then i else rootAux fuel p (p i)

/-- Canonical root of `i`: fuel `i + 1` always suffices on the decreasing
parent maps the pipeline produces. -/
def droot (p : Nat → Nat) (i : Nat) : Nat := rootAux (i + 1) p i

/-- Parent maps reachable by the pipeline only ever decrease (the union
policy parents the smaller label). -/
def Decr (p : Nat → Nat) : Prop := ∀ j, p j ≤ j

/-- Equivalence closure of a relation on labels. -/
inductive EqvCl (R : Nat → Nat → Prop) : Nat → Nat → Prop
  | base {a b} : R a b → EqvCl R a b
  | refl (a) : EqvCl R a a
  | symm {a b} : EqvCl R a b → EqvCl R b a
  | trans {a b c} : EqvCl R a b → EqvCl R b c → EqvCl R a c

/-- The parent map obtained by `dsu_init()` followed by the given
sequence of `dsu_unite` calls. -/
def applyOps (ops : List (Nat × Nat)) : Nat → Nat :=
  ops.foldl (fun p ab => dsu_unite p ab.1 ab.2) dsu_init

/-- Invariant tying a parent map to an equivalence relation: parents
decrease, every label's root is in its class, and equivalent labels share
a root. -/
def RootsMin (R : Nat → Nat → Prop) (p : Nat → Nat) : Prop :=
  Decr p ∧ (∀ a, EqvCl R a (droot p a)) ∧
    (∀ a b, EqvCl R a b → droot p a = droot p b)

/-- First-pass prefix: the raster scan flattened to a single fold over
the first `n` positions. -/
def pass1Flat (w : Nat) (bin : List Nat) (n : Nat) : LabelState :=
  (List.range n).foldl (fun s i => labelStep w s (i % w) (i / w))
    ⟨bin, dsu_init, 1⟩

/-- Second-pass prefix: the raster scan flattened to a single fold over
the first `n` positions. -/
def pass2Flat (w : Nat) (pix : List Nat) (par : Nat → Nat) (n : Nat) :
    AggState :=
  (List.range n).foldl (fun s i => aggStep w s (i % w) (i / w))
    ⟨pix, par, fun _ => blobZero⟩

/-- Invariant of the first pass after `n` raster steps: length preserved,
the unprocessed tail still holds the binarized values, every processed
pixel holds a value below the current label counter, the counter stays in
`[1, MAX_LABELS]`, and the parent map decreases. -/
def Pass1Inv (bin : List Nat) (n : Nat) (s : LabelState) : Prop :=
  s.pixels.length = bin.length ∧
  (∀ j, n ≤ j → getPix s.pixels j = getPix bin j) ∧
  (∀ j, j < n → getPix s.pixels j < s.next_label) ∧
  1 ≤ s.next_label ∧ s.next_label ≤ MAX_LABELS ∧
  Decr s.parent

/-- A pixel of `fb` dropped by the first pass: binarized to foreground but
holding background `0` after the first pass (this happens exactly when the
fresh-label branch ran with the counter at capacity). -/
def droppedPix (fb : camera_fb_t) (j : Nat) : Bool :=
  (getPix (binarize fb.width fb.height fb.buf) j == 0xFFFF) &&
    (getPix (pass1 fb.width fb.height
      (binarize fb.width fb.height fb.buf)).pixels j == 0)

/-- The frame with every dropped (capacity-overflow) pixel of `fb`
replaced by a black pixel: "the frame without the excess regions". -/
def maskDropped (fb : camera_fb_t) : camera_fb_t :=
  { format := fb.format, width := fb.width, height := fb.height,
    buf := List.map (fun j => if droppedPix fb j then 0 else getPix fb.buf j)
      (List.range fb.buf.length) }

/-- Coupling between the first-pass prefixes on the original and on the
masked binarized buffers: identical counter and forest, identical
processed prefix, untouched tails. -/
def CoupleInv (bin bin' : List Nat) (n : Nat) (s s' : LabelState) : Prop :=
  s'.next_label = s.next_label ∧ s'.parent = s.parent ∧
  s.pixels.length = bin.length ∧ s'.pixels.length = bin.length ∧
  (∀ j, j < n → getPix s'.pixels j = getPix s.pixels j) ∧
  (∀ j, n ≤ j → getPix s.pixels j = getPix bin j) ∧
  (∀ j, n ≤ j → getPix s'.pixels j = getPix bin' j)

/-! ## Basic buffer lemmas -/

theorem getPix_set (l : List Nat) (i j v : Nat) :
    getPix (l.set i v) j = if i = j ∧ i < l.length then v else getPix l j := by
  simp only [getPix, List.getD_eq_getElem?_getD, List.getElem?_set]
  by_cases h1 : i = j
  · subst h1
    by_cases h2 : i < l.length
    · simp [h2]
    · have h3 : l[i]? = none := List.getElem?_eq_none (by omega)
      simp [h2, h3]
  · simp [h1]

theorem getPix_lt_length {l : List Nat} {j : Nat} (h : l.length ≤ j) :
    getPix l j = 0 := by
  simp only [getPix, List.getD_eq_getElem?_getD]
  rw [List.getElem?_eq_none h]
  simp

theorem binFold_length (n : Nat) (buf : List Nat) :
    ((List.range n).foldl
      (fun px i => px.set i (binPix (getPix px i))) buf).length = buf.length := by
  induction n with
  | zero => simp
  | succ n ih =>
    rw [List.range_succ, List.foldl_append]
    simp [ih]

theorem getPix_binFold (n : Nat) (buf : List Nat) (j : Nat) :
    getPix ((List.range n).foldl
        (fun px i => px.set i (binPix (getPix px i))) buf) j =
      if j < n ∧ j < buf.length then binPix (getPix buf j) else getPix buf j := by
  induction n generalizing j with
  | zero => simp
  | succ n ih =>
    rw [List.range_succ, List.foldl_append]
    simp only [List.foldl_cons, List.foldl_nil]
    have hmid : getPix ((List.range n).foldl
        (fun px i => px.set i (binPix (getPix px i))) buf) n = getPix buf n := by
      rw [ih n]; simp
    rw [getPix_set, binFold_length, hmid, ih j]
    rcases Nat.lt_trichotomy j n with hj | hj | hj
    · have h1 : ¬(n = j) := by omega
      simp only [h1, false_and, if_false]
      by_cases h2 : j < buf.length
      · simp [hj, h2, Nat.lt_succ_of_lt hj]
      · simp [h2]
    · subst hj
      simp only [lt_irrefl, false_and, if_false, if_true]
      by_cases h2 : j < buf.length
      · simp [h2]
      · simp [h2]
    · have h1 : ¬(n = j) := by omega
      have h2 : ¬(j < n) := by omega
      have h3 : ¬(j < n + 1) := by omega
      simp [h1, h2, h3]

theorem binarize_length (w h : Nat) (buf : List Nat) :
    (binarize w h buf).length = buf.length := binFold_length _ _

theorem getPix_binarize (w h : Nat) (buf : List Nat) (j : Nat) :
    getPix (binarize w h buf) j =
      if j < w * h ∧ j < buf.length then binPix (getPix buf j)
      else getPix buf j := getPix_binFold _ _ _

/-! ## Decoding lemmas -/

set_option maxRecDepth 10000

theorem and_248 : ∀ b, b < 256 → b &&& 248 = b / 8 * 8 := by decide

theorem and_7 : ∀ b, b < 256 → b &&& 7 = b % 8 := by decide

theorem and_224_shr : ∀ b, b < 256 → (b &&& 224) >>> 3 = b / 32 * 4 := by decide

theorem and_31 : ∀ b, b < 256 → b &&& 31 = b % 32 := by decide

theorem lor_small : ∀ a, a < 8 → ∀ c, c < 32 → (a <<< 5) ||| c = a * 32 + c := by
  decide

theorem decode_r_eq (v : Nat) : decode_r v = fieldR5 v * 8 := by
  have h := and_248 (v % 256) (Nat.mod_lt _ (by norm_num))
  simpa [decode_r, low_byte, fieldR5] using h

theorem decode_g_eq (v : Nat) : decode_g v = fieldG6 v * 4 := by
  have h0 : v % 256 < 256 := Nat.mod_lt _ (by norm_num)
  have h1 : v / 256 % 256 < 256 := Nat.mod_lt _ (by norm_num)
  have e1 := and_7 (v % 256) h0
  have e2 := and_224_shr (v / 256 % 256) h1
  have e3 : v % 256 % 8 < 8 := Nat.mod_lt _ (by norm_num)
  have e4 : v / 256 % 256 / 32 * 4 < 32 := by
    have : v / 256 % 256 / 32 < 8 := Nat.div_lt_of_lt_mul (by omega)
    omega
  have e5 := lor_small (v % 256 % 8) e3 (v / 256 % 256 / 32 * 4) e4
  simp only [decode_g, low_byte, high_byte, e1, e2, e5, fieldG6]
  ring

theorem decode_b_eq (v : Nat) : decode_b v = fieldB5 v * 8 := by
  have h1 : v / 256 % 256 < 256 := Nat.mod_lt _ (by norm_num)
  have e := and_31 (v / 256 % 256) h1
  simp [decode_b, high_byte, e, fieldB5, Nat.shiftLeft_eq]

theorem binPix_eq (v : Nat) :
    binPix v =
      if 230 < fieldR5 v * 8 ∧ 230 < fieldG6 v * 4 ∧ 230 < fieldB5 v * 8
      then 0xFFFF else 0 := by
  simp only [binPix, isForeground, decode_r_eq, decode_g_eq, decode_b_eq,
    Bool.and_eq_true, decide_eq_true_eq]
  by_cases h1 : 230 < fieldR5 v * 8 <;>
    by_cases h2 : 230 < fieldG6 v * 4 <;>
      by_cases h3 : 230 < fieldB5 v * 8 <;>
        simp [h1, h2, h3]

/-! ## Union-find lemmas -/

theorem rootAux_congr {p : Nat → Nat} (hp : Decr p) :
    ∀ i f1 f2, i < f1 → i < f2 → rootAux f1 p i = rootAux f2 p i := by
  intro i
  induction i using Nat.strong_induction_on with
  | _ i ih =>
    intro f1 f2 h1 h2
    match f1, f2 with
    | fa + 1, fb + 1 =>
      simp only [rootAux]
      by_cases hfix : p i = i
      · simp [hfix]
      · have hlt : p i < i := Nat.lt_of_le_of_ne (hp i) hfix
        simp only [hfix, if_false]
        exact ih (p i) hlt fa fb (by omega) (by omega)

theorem rootAux_eq_droot {p : Nat → Nat} (hp : Decr p) {i fuel : Nat}
    (h : i < fuel) : rootAux fuel p i = droot p i :=
  rootAux_congr hp i fuel (i + 1) h (Nat.lt_succ_self i)

theorem droot_self {p : Nat → Nat} {i : Nat} (h : p i = i) : droot p i = i := by
  simp [droot, rootAux, h]

theorem droot_step {p : Nat → Nat} (hp : Decr p) {i : Nat} (h : p i ≠ i) :
    droot p i = droot p (p i) := by
  have hlt : p i < i := Nat.lt_of_le_of_ne (hp i) h
  simp only [droot, rootAux, h, if_false]
  exact rootAux_congr hp (p i) i (p i + 1) hlt (Nat.lt_succ_self _)

theorem droot_le {p : Nat → Nat} (hp : Decr p) (i : Nat) : droot p i ≤ i := by
  induction i using Nat.strong_induction_on with
  | _ i ih =>
    by_cases hfix : p i = i
    · rw [droot_self hfix]
    · have hlt : p i < i := Nat.lt_of_le_of_ne (hp i) hfix
      rw [droot_step hp hfix]
      exact le_trans (ih (p i) hlt) (le_of_lt hlt)

theorem droot_fixed {p : Nat → Nat} (hp : Decr p) (i : Nat) :
    p (droot p i) = droot p i := by
  induction i using Nat.strong_induction_on with
  | _ i ih =>
    by_cases hfix : p i = i
    · rw [droot_self hfix]; exact hfix
    · have hlt : p i < i := Nat.lt_of_le_of_ne (hp i) hfix
      rw [droot_step hp hfix]
      exact ih (p i) hlt

theorem droot_idem {p : Nat → Nat} (hp : Decr p) (i : Nat) :
    droot p (droot p i) = droot p i :=
  droot_self (droot_fixed hp i)

theorem fixed_of_droot_eq {p : Nat → Nat} (hp : Decr p) {x : Nat}
    (h : droot p x = x) : p x = x := by
  by_contra hne
  have hlt : p x < x := Nat.lt_of_le_of_ne (hp x) hne
  have := droot_step hp hne
  have := droot_le hp (p x)
  omega

theorem dsu_findAux_fst (fuel : Nat) (p : Nat → Nat) (i : Nat) :
    (dsu_findAux fuel p i).1 = rootAux fuel p i := by
  induction fuel generalizing p i with
  | zero => rfl
  | succ fuel ih =>
    simp only [dsu_findAux, rootAux]
    by_cases h : p i = i
    · simp [h]
    · simp only [h, if_false]
      exact ih p (p i)

/-- Updating a node to point directly at its root preserves all roots. -/
theorem droot_update_root {p : Nat → Nat} (hp : Decr p) (i : Nat) :
    Decr (fun k => if k = i then droot p i else p k) ∧
    ∀ j, droot (fun k => if k = i then droot p i else p k) j = droot p j := by
  have hdecr : Decr (fun k => if k = i then droot p i else p k) := by
    intro j
    by_cases h : j = i
    · subst h; simp [droot_le hp j]
    · simp [h, hp j]
  refine ⟨hdecr, ?_⟩
  intro j
  induction j using Nat.strong_induction_on with
  | _ j ih =>
    set p' : Nat → Nat := fun k => if k = i then droot p i else p k with hp'
    by_cases hfix : p' j = j
    · rw [droot_self hfix]
      by_cases hji : j = i
      · subst hji
        have : droot p j = j := by simpa [hp'] using hfix
        omega
      · have : p j = j := by simpa [hp', hji] using hfix
        rw [droot_self this]
    · have hlt : p' j < j := Nat.lt_of_le_of_ne (hdecr j) hfix
      rw [droot_step hdecr hfix]
      rw [ih (p' j) hlt]
      by_cases hji : j = i
      · subst hji
        have hv : p' j = droot p j := by simp [hp']
        rw [hv, droot_idem hp]
      · have hv : p' j = p j := by simp [hp', hji]
        rw [hv]
        have hpj : p j ≠ j := by
          intro hc
          exact hfix (by simp [hp', hji, hc])
        rw [← droot_step hp hpj]

/-- The compressed parent map returned by `dsu_findAux` preserves all
roots, and the returned first component is the root. -/
theorem dsu_findAux_spec :
    ∀ fuel (p : Nat → Nat) i, Decr p → i < fuel →
      (dsu_findAux fuel p i).1 = droot p i ∧
      Decr (dsu_findAux fuel p i).2 ∧
      (∀ j, droot ((dsu_findAux fuel p i).2) j = droot p j) := by
  intro fuel
  induction fuel with
  | zero => intro p i hp h; omega
  | succ fuel ih =>
    intro p i hp h
    by_cases hfix : p i = i
    · simp only [dsu_findAux, hfix, if_pos rfl]
      exact ⟨(droot_self hfix).symm, hp, fun j => rfl⟩
    · have hlt : p i < i := Nat.lt_of_le_of_ne (hp i) hfix
      obtain ⟨h1, h2, h3⟩ := ih p (p i) hp (by omega)
      have hfst : (dsu_findAux (fuel + 1) p i).1 = droot p i := by
        rw [dsu_findAux_fst, rootAux_eq_droot hp h]
      refine ⟨hfst, ?_, ?_⟩
      · -- Decr of the updated map
        simp only [dsu_findAux, hfix, if_false]
        intro j
        by_cases hj : j = i
        · subst hj
          simp only [if_pos rfl]
          have : (dsu_findAux fuel p (p j)).1 = droot p (p j) := h1
          rw [this, ← droot_step hp hfix]
          exact droot_le hp j
        · simp only [hj, if_false]
          exact h2 j
      · intro j
        -- the final map is r.2 updated at i with droot p i
        have hmap : (dsu_findAux (fuel + 1) p i).2 =
            fun k => if k = i then droot ((dsu_findAux fuel p (p i)).2) i
              else (dsu_findAux fuel p (p i)).2 k := by
          simp only [dsu_findAux, hfix, if_false]
          funext k
          by_cases hk : k = i
          · simp only [hk, if_pos rfl]
            rw [h1, h3 i, ← droot_step hp hfix]
          · simp [hk]
        rw [hmap]
        have := (droot_update_root h2 i).2 j
        rw [this, h3 j]

theorem dsu_find_spec {p : Nat → Nat} (hp : Decr p) {i : Nat}
    (h : i < MAX_LABELS) :
    (dsu_find p i).1 = droot p i ∧
    Decr (dsu_find p i).2 ∧
    (∀ j, droot ((dsu_find p i).2) j = droot p j) :=
  dsu_findAux_spec MAX_LABELS p i hp h

/-- Linking a root `r` beneath a smaller root `s` redirects exactly the
class of `r`. -/
theorem droot_link {p : Nat → Nat} (hp : Decr p) {r s : Nat}
    (hr : p r = r) (hs : p s = s) (hsr : s < r) :
    Decr (fun k => if k = r then s else p k) ∧
    ∀ j, droot (fun k => if k = r then s else p k) j =
      if droot p j = r then s else droot p j := by
  have hdecr : Decr (fun k => if k = r then s else p k) := by
    intro j
    by_cases h : j = r
    · subst h; simp [le_of_lt hsr]
    · simp [h, hp j]
  refine ⟨hdecr, ?_⟩
  intro j
  induction j using Nat.strong_induction_on with
  | _ j ih =>
    set p' : Nat → Nat := fun k => if k = r then s else p k with hp'
    by_cases hjr : j = r
    · subst hjr
      have hv : p' j = s := by simp [hp']
      by_cases hss : s = j
      · omega
      · have hfix : p' j ≠ j := by rw [hv]; omega
        rw [droot_step hdecr hfix, hv]
        have hsfix : p' s = s := by
          simp [hp', hss, hs]
        rw [droot_self hsfix, droot_self hr]
        simp
    · have hv : p' j = p j := by simp [hp', hjr]
      by_cases hfix : p j = j
      · have : p' j = j := by rw [hv, hfix]
        rw [droot_self this, droot_self hfix]
        simp [hjr]
      · have hlt : p j < j := Nat.lt_of_le_of_ne (hp j) hfix
        have hfix' : p' j ≠ j := by rw [hv]; exact hfix
        rw [droot_step hdecr hfix', hv, ih (p j) hlt,
          ← droot_step hp hfix]

/-- Full characterization of `dsu_unite` on decreasing parent maps with
in-range arguments. -/
theorem dsu_unite_spec {p : Nat → Nat} (hp : Decr p) {a b : Nat}
    (ha : a < MAX_LABELS) (hb : b < MAX_LABELS) :
    Decr (dsu_unite p a b) ∧
    ∀ j, droot (dsu_unite p a b) j =
      if droot p a = droot p b then droot p j
      else if droot p j = max (droot p a) (droot p b)
        then min (droot p a) (droot p b) else droot p j := by
  obtain ⟨hfa1, hfa2, hfa3⟩ := dsu_find_spec hp ha
  obtain ⟨hfb1, hfb2, hfb3⟩ := dsu_find_spec hfa2 hb
  have hb1' : (dsu_find (dsu_find p a).2 b).1 = droot p b := by
    rw [hfb1, hfa3]
  set p2 : Nat → Nat := (dsu_find (dsu_find p a).2 b).2 with hp2
  have hp2droot : ∀ j, droot p2 j = droot p j := fun j => by
    rw [hfb3 j, hfa3 j]
  have hra : droot p2 (droot p a) = droot p a := by
    rw [hp2droot, droot_idem hp]
  have hrb : droot p2 (droot p b) = droot p b := by
    rw [hp2droot, droot_idem hp]
  have hfix_a : p2 (droot p a) = droot p a := fixed_of_droot_eq hfb2 hra
  have hfix_b : p2 (droot p b) = droot p b := fixed_of_droot_eq hfb2 hrb
  by_cases heq : droot p a = droot p b
  · have : dsu_unite p a b = p2 := by
      simp [dsu_unite, hfa1, hb1', heq, hp2]
    rw [this]
    refine ⟨hfb2, fun j => by rw [hp2droot j, if_pos heq]⟩
  · by_cases hlt : droot p a < droot p b
    · have hform : dsu_unite p a b =
          fun k => if k = droot p b then droot p a else p2 k := by
        simp only [dsu_unite, hfa1, hb1']
        rw [if_pos heq, if_pos hlt]
      obtain ⟨hd, hroots⟩ := droot_link hfb2 hfix_b hfix_a hlt
      rw [hform]
      refine ⟨hd, fun j => ?_⟩
      rw [hroots j, hp2droot j]
      rw [if_neg heq]
      have hmax : max (droot p a) (droot p b) = droot p b := by omega
      have hmin : min (droot p a) (droot p b) = droot p a := by omega
      rw [hmax, hmin]
    · have hgt : droot p b < droot p a := by omega
      have hform : dsu_unite p a b =
          fun k => if k = droot p a then droot p b else p2 k := by
        simp only [dsu_unite, hfa1, hb1']
        rw [if_pos heq, if_neg (by omega : ¬ droot p a < droot p b)]
      obtain ⟨hd, hroots⟩ := droot_link hfb2 hfix_a hfix_b hgt
      rw [hform]
      refine ⟨hd, fun j => ?_⟩
      rw [hroots j, hp2droot j]
      rw [if_neg heq]
      have hmax : max (droot p a) (droot p b) = droot p a := by omega
      have hmin : min (droot p a) (droot p b) = droot p b := by omega
      rw [hmax, hmin]

theorem EqvCl_mono {R S : Nat → Nat → Prop}
    (h : ∀ x y, R x y → EqvCl S x y) :
    ∀ {x y}, EqvCl R x y → EqvCl S x y := by
  intro x y hxy
  induction hxy with
  | base hab => exact h _ _ hab
  | refl a => exact EqvCl.refl a
  | symm _ ih => exact EqvCl.symm ih
  | trans _ _ ih1 ih2 => exact EqvCl.trans ih1 ih2

theorem RootsMin_congr {R S : Nat → Nat → Prop} {p : Nat → Nat}
    (hRS : ∀ x y, R x y → EqvCl S x y)
    (hSR : ∀ x y, S x y → EqvCl R x y)
    (h : RootsMin R p) : RootsMin S p := by
  obtain ⟨hd, hmem, hsame⟩ := h
  exact ⟨hd, fun a => EqvCl_mono hRS (hmem a),
    fun a b hab => hsame a b (EqvCl_mono hSR hab)⟩

theorem rootsMin_init : RootsMin (fun _ _ => False) dsu_init := by
  refine ⟨fun j => le_refl j, fun a => ?_, fun a b h => ?_⟩
  · rw [droot_self rfl]
    exact EqvCl.refl a
  · induction h with
    | base hab => exact absurd hab id
    | refl a => rfl
    | symm _ ih => exact ih.symm
    | trans _ _ ih1 ih2 => exact ih1.trans ih2

theorem rootsMin_unite {R : Nat → Nat → Prop} {p : Nat → Nat}
    (h : RootsMin R p) {a b : Nat} (ha : a < MAX_LABELS)
    (hb : b < MAX_LABELS) :
    RootsMin (fun x y => R x y ∨ (x = a ∧ y = b)) (dsu_unite p a b) := by
  obtain ⟨hdecr, hmem, hsame⟩ := h
  obtain ⟨hd, hroots⟩ := dsu_unite_spec hdecr ha hb
  have hlift : ∀ {x y}, EqvCl R x y →
      EqvCl (fun x y => R x y ∨ (x = a ∧ y = b)) x y :=
    EqvCl_mono (fun x y hr => EqvCl.base (Or.inl hr))
  have hab : EqvCl (fun x y => R x y ∨ (x = a ∧ y = b)) a b :=
    EqvCl.base (Or.inr ⟨rfl, rfl⟩)
  have hrarb : EqvCl (fun x y => R x y ∨ (x = a ∧ y = b))
      (droot p a) (droot p b) :=
    EqvCl.trans (EqvCl.symm (hlift (hmem a)))
      (EqvCl.trans hab (hlift (hmem b)))
  refine ⟨hd, ?_, ?_⟩
  · intro x
    rw [hroots x]
    by_cases heq : droot p a = droot p b
    · rw [if_pos heq]
      exact hlift (hmem x)
    · rw [if_neg heq]
      by_cases hx : droot p x = max (droot p a) (droot p b)
      · rw [if_pos hx]
        have hxmax : EqvCl (fun x y => R x y ∨ (x = a ∧ y = b)) x
            (max (droot p a) (droot p b)) := by
          rw [← hx]; exact hlift (hmem x)
        have hmaxmin : EqvCl (fun x y => R x y ∨ (x = a ∧ y = b))
            (max (droot p a) (droot p b)) (min (droot p a) (droot p b)) := by
          rcases Nat.le_total (droot p a) (droot p b) with hle | hle
          · rw [Nat.max_eq_right hle, Nat.min_eq_left hle]
            exact EqvCl.symm hrarb
          · rw [Nat.max_eq_left hle, Nat.min_eq_right hle]
            exact hrarb
        exact EqvCl.trans hxmax hmaxmin
      · rw [if_neg hx]
        exact hlift (hmem x)
  · intro x y hxy
    induction hxy with
    | base hxy =>
      rcases hxy with hr | ⟨hx, hy⟩
      · have := hsame _ _ (EqvCl.base hr)
        rw [hroots, hroots, this]
      · rw [hroots, hroots, hx, hy]
        by_cases heq : droot p a = droot p b
        · rw [if_pos heq, if_pos heq, heq]
        · rw [if_neg heq, if_neg heq]
          rcases Nat.lt_or_ge (droot p a) (droot p b) with hlt | hge
          · have hmax : max (droot p a) (droot p b) = droot p b := by omega
            have hmin : min (droot p a) (droot p b) = droot p a := by omega
            rw [hmax, hmin, if_neg heq, if_pos rfl]
          · have hmax : max (droot p a) (droot p b) = droot p a := by omega
            have hmin : min (droot p a) (droot p b) = droot p b := by omega
            rw [hmax, hmin, if_pos rfl,
              if_neg (by omega : ¬ droot p b = droot p a)]
    | refl a => rfl
    | symm _ ih => exact ih.symm
    | trans _ _ ih1 ih2 => exact ih1.trans ih2

theorem rootsMin_fold :
    ∀ (ops : List (Nat × Nat)) (p : Nat → Nat) (R : Nat → Nat → Prop),
      RootsMin R p →
      (∀ pr ∈ ops, pr.1 < MAX_LABELS ∧ pr.2 < MAX_LABELS) →
      RootsMin (fun x y => R x y ∨ (x, y) ∈ ops)
        (ops.foldl (fun q ab => dsu_unite q ab.1 ab.2) p) := by
  intro ops
  induction ops with
  | nil =>
    intro p R h hv
    simp only [List.foldl_nil]
    refine RootsMin_congr ?_ ?_ h
    · intro x y hr
      exact EqvCl.base (Or.inl hr)
    · intro x y hr
      rcases hr with hr | hr
      · exact EqvCl.base hr
      · simp at hr
  | cons ab rest ih =>
    intro p R h hv
    simp only [List.foldl_cons]
    have h1 := rootsMin_unite h (hv ab (List.mem_cons_self ab rest)).1
      (hv ab (List.mem_cons_self ab rest)).2
    have h2 := ih (dsu_unite p ab.1 ab.2) _ h1
      (fun pr hpr => hv pr (List.mem_cons_of_mem _ hpr))
    refine RootsMin_congr ?_ ?_ h2
    · intro x y hr
      refine EqvCl.base ?_
      rcases hr with (hr | ⟨hx, hy⟩) | hr
      · exact Or.inl hr
      · refine Or.inr ?_
        rw [List.mem_cons]
        exact Or.inl (by rw [hx, hy])
      · exact Or.inr (List.mem_cons_of_mem _ hr)
    · intro x y hr
      refine EqvCl.base ?_
      rcases hr with hr | hr
      · exact Or.inl (Or.inl hr)
      · rw [List.mem_cons] at hr
        rcases hr with hr | hr
        · refine Or.inl (Or.inr ?_)
          exact ⟨congrArg Prod.fst hr, congrArg Prod.snd hr⟩
        · exact Or.inr hr

theorem applyOps_rootsMin (ops : List (Nat × Nat))
    (hv : ∀ pr ∈ ops, pr.1 < MAX_LABELS ∧ pr.2 < MAX_LABELS) :
    RootsMin (fun x y => (x, y) ∈ ops) (applyOps ops) := by
  have h := rootsMin_fold ops dsu_init (fun _ _ => False) rootsMin_init hv
  refine RootsMin_congr ?_ ?_ h
  · intro x y hr
    rcases hr with hr | hr
    · exact absurd hr id
    · exact EqvCl.base hr
  · intro x y hr
    exact EqvCl.base (Or.inr hr)

theorem EqvCl_mem_bound {ops : List (Nat × Nat)}
    (hv : ∀ pr ∈ ops, pr.1 < MAX_LABELS ∧ pr.2 < MAX_LABELS) :
    ∀ {x y}, EqvCl (fun x y => (x, y) ∈ ops) x y →
      (x < MAX_LABELS ↔ y < MAX_LABELS) := by
  intro x y h
  induction h with
  | base hab => exact ⟨fun _ => (hv _ hab).2, fun _ => (hv _ hab).1⟩
  | refl a => exact Iff.rfl
  | symm _ ih => exact ih.symm
  | trans _ _ ih1 ih2 => exact ih1.trans ih2

/-! ## Pass flattening and aggregation invariants -/

theorem foldl_congr_mem {α σ : Type} (l : List α) (f g : σ → α → σ)
    (init : σ) (h : ∀ s a, a ∈ l → f s a = g s a) :
    l.foldl f init = l.foldl g init := by
  induction l generalizing init with
  | nil => rfl
  | cons a l ih =>
    simp only [List.foldl_cons]
    rw [h init a (List.mem_cons_self a l)]
    exact ih _ (fun s b hb => h s b (List.mem_cons_of_mem a hb))

theorem nested_foldl_eq_flat {σ : Type} (w : Nat) (step : σ → Nat → Nat → σ) :
    ∀ (h : Nat) (init : σ),
      (List.range h).foldl
        (fun s y => (List.range w).foldl (fun s x => step s x y) s) init
      = (List.range (h * w)).foldl (fun s i => step s (i % w) (i / w)) init := by
  intro h
  induction h with
  | zero => intro init; simp
  | succ h ih =>
    intro init
    rw [List.range_succ, List.foldl_append, ih]
    have hsz : (h + 1) * w = h * w + w := by ring
    rw [hsz, List.range_add, List.foldl_append]
    simp only [List.foldl_cons, List.foldl_nil, List.foldl_map]
    apply foldl_congr_mem
    intro s x hx
    rw [List.mem_range] at hx
    have h1 : (h * w + x) % w = x := by
      rw [Nat.add_comm, Nat.add_mul_mod_self_right]
      exact Nat.mod_eq_of_lt hx
    have h2 : (h * w + x) / w = h := by
      rw [Nat.add_comm, Nat.add_mul_div_right _ _ (by omega : 0 < w)]
      rw [Nat.div_eq_of_lt hx]
      omega
    rw [h1, h2]

theorem pass1_eq_flat (w h : Nat) (bin : List Nat) :
    pass1 w h bin = pass1Flat w bin (h * w) := by
  unfold pass1 pass1Flat
  exact nested_foldl_eq_flat w (fun s x y => labelStep w s x y) h _

theorem pass2_eq_flat (w h : Nat) (s1 : LabelState) :
    pass2 w h s1 = pass2Flat w s1.pixels s1.parent (h * w) := by
  unfold pass2 pass2Flat
  exact nested_foldl_eq_flat w (fun s x y => aggStep w s x y) h _

theorem pass2E_eq_flat (w h : Nat) (s1 : LabelState) :
    pass2E w h s1 = (List.range (h * w)).foldl
      (fun s i => aggStepE w s (i % w) (i / w)) ⟨s1.pixels, s1.parent, fun _ => blobZero⟩ := by
  unfold pass2E
  exact nested_foldl_eq_flat w (fun s x y => aggStepE w s x y) h _

theorem aggInv_step (w h n : Nat) (s sE : AggState)
    (hn : n < h * w) (hinv : AggInv w h n s sE) :
    AggInv w h (n + 1) (aggStep w s (n % w) (n / w))
      (aggStepE w sE (n % w) (n / w)) := by
  obtain ⟨hpix, hpar, hblob⟩ := hinv
  have hw : 0 < w := by
    rcases Nat.eq_zero_or_pos w with h0 | h0
    · subst h0
      rw [Nat.mul_zero] at hn
      omega
    · exact h0
  have hx : n % w ≤ w - 1 := by
    have := Nat.mod_lt n hw
    omega
  have hy : n / w ≤ h - 1 := by
    have hn' : n < w * h := by rw [Nat.mul_comm]; exact hn
    have : n / w < h := Nat.div_lt_of_lt_mul hn'
    omega
  simp only [aggStep, aggStepE, ← hpix, ← hpar]
  by_cases hv : 0 < getPix s.pixels (n / w * w + n % w)
  · rw [if_pos hv, if_pos hv]
    set f := dsu_find s.parent (getPix s.pixels (n / w * w + n % w)) with hf
    obtain ⟨hid, hcnt, hsx, hsy, hsx2, hsy2, hsxy, hcn, hbx, hby, hbx2, hby2, hbxy⟩ :=
      hblob f.1
    refine ⟨by rw [hpix], rfl, fun k => ?_⟩
    by_cases hk : k = f.1
    · subst hk
      simp only [eq_self_iff_true, if_true]
      refine ⟨by rw [hid], by rw [hcnt], ?_, ?_, ?_, ?_, ?_, ?_, ?_, ?_, ?_, ?_, ?_⟩
      · rw [hsx]; omega
      · rw [hsy]; omega
      · rw [hsx2]; omega
      · rw [hsy2]; omega
      · rw [hsxy]; omega
      · omega
      · rw [Nat.succ_mul]
        exact Nat.add_le_add hbx hx
      · rw [Nat.succ_mul]
        exact Nat.add_le_add hby hy
      · rw [Nat.succ_mul]
        exact Nat.add_le_add hbx2 (Nat.mul_le_mul hx hx)
      · rw [Nat.succ_mul]
        exact Nat.add_le_add hby2 (Nat.mul_le_mul hy hy)
      · rw [Nat.succ_mul]
        exact Nat.add_le_add hbxy (Nat.mul_le_mul hx hy)
    · simp only [hk, if_false]
      obtain ⟨hid', hcnt', hsx', hsy', hsx2', hsy2', hsxy', hcn', hbx', hby',
        hbx2', hby2', hbxy'⟩ := hblob k
      exact ⟨hid', hcnt', hsx', hsy', hsx2', hsy2', hsxy', by omega,
        hbx', hby', hbx2', hby2', hbxy'⟩
  · rw [if_neg hv, if_neg hv]
    refine ⟨hpix, hpar, fun k => ?_⟩
    obtain ⟨hid', hcnt', hsx', hsy', hsx2', hsy2', hsxy', hcn', hbx', hby',
      hbx2', hby2', hbxy'⟩ := hblob k
    exact ⟨hid', hcnt', hsx', hsy', hsx2', hsy2', hsxy', by omega,
      hbx', hby', hbx2', hby2', hbxy'⟩

theorem aggInv_fold (w h : Nat) (pix : List Nat) (par : Nat → Nat) :
    ∀ n, n ≤ h * w →
      AggInv w h n
        ((List.range n).foldl (fun s i => aggStep w s (i % w) (i / w))
          ⟨pix, par, fun _ => blobZero⟩)
        ((List.range n).foldl (fun s i => aggStepE w s (i % w) (i / w))
          ⟨pix, par, fun _ => blobZero⟩) := by
  intro n
  induction n with
  | zero =>
    intro h0
    exact ⟨rfl, rfl, fun k => by simp [blobZero]⟩
  | succ n ih =>
    intro hsn
    rw [List.range_succ, List.foldl_append, List.foldl_append]
    simp only [List.foldl_cons, List.foldl_nil]
    exact aggInv_step w h n _ _ (by omega) (ih (by omega))

theorem pass2_aggInv (w h : Nat) (s1 : LabelState) :
    AggInv w h (h * w) (pass2 w h s1) (pass2E w h s1) := by
  rw [pass2_eq_flat, pass2E_eq_flat]
  exact aggInv_fold w h s1.pixels s1.parent (h * w) (le_refl _)

theorem pass2_sum_bounds (w h : Nat) (s1 : LabelState) (k : Nat) :
    ((pass2 w h s1).blobs k).sum_x ≤
      ((pass2 w h s1).blobs k).pixel_count * (w - 1) ∧
    ((pass2 w h s1).blobs k).sum_y ≤
      ((pass2 w h s1).blobs k).pixel_count * (h - 1) := by
  obtain ⟨-, -, hblob⟩ := pass2_aggInv w h s1
  obtain ⟨-, hcnt, hsx, hsy, -, -, -, -, hbx, hby, -⟩ := hblob k
  rw [hcnt]
  constructor
  · rw [hsx]
    omega
  · rw [hsy]
    omega

/-! ## First-pass invariants -/

theorem binPix_cases (v : Nat) : binPix v = 0 ∨ binPix v = 0xFFFF := by
  unfold binPix
  by_cases h : isForeground v <;> simp [h]

theorem binarize_vals {w h : Nat} {buf : List Nat} (hlen : buf.length = w * h)
    (j : Nat) :
    getPix (binarize w h buf) j = 0 ∨ getPix (binarize w h buf) j = 0xFFFF := by
  rcases Nat.lt_or_ge j (w * h) with hj | hj
  · rw [getPix_binarize, if_pos ⟨hj, by omega⟩]
    exact binPix_cases _
  · left
    apply getPix_lt_length
    rw [binarize_length, hlen]
    omega

theorem labelStep_pixels_other (w : Nat) (s : LabelState) (x y j : Nat)
    (hne : y * w + x ≠ j) :
    getPix (labelStep w s x y).pixels j = getPix s.pixels j := by
  simp only [labelStep]
  repeat' split
  all_goals simp [getPix_set, hne]

theorem pass1Flat_succ (w : Nat) (bin : List Nat) (n : Nat) :
    pass1Flat w bin (n + 1)
      = labelStep w (pass1Flat w bin n) (n % w) (n / w) := by
  unfold pass1Flat
  rw [List.range_succ, List.foldl_append]
  simp

theorem pos_index_eq (n w : Nat) : n / w * w + n % w = n := by
  rw [Nat.mul_comm]
  exact Nat.div_add_mod n w

theorem pass1Flat_stable (w : Nat) (bin : List Nat) :
    ∀ m n, n ≤ m → ∀ j, j < n →
      getPix (pass1Flat w bin m).pixels j
        = getPix (pass1Flat w bin n).pixels j := by
  intro m
  induction m with
  | zero =>
    intro n hn j hj
    omega
  | succ m ih =>
    intro n hn j hj
    rcases Nat.eq_or_lt_of_le hn with he | hl
    · rw [he]
    · rw [pass1Flat_succ, labelStep_pixels_other]
      · exact ih n (by omega) j hj
      · rw [pos_index_eq]
        omega

theorem pass1Inv_update {bin : List Nat} {n : Nat} {s : LabelState}
    (hinv : Pass1Inv bin n s) (v next' : Nat) (p' : Nat → Nat)
    (hfg : getPix s.pixels n = 0xFFFF) (hv : v < next')
    (h1 : 1 ≤ next') (h256 : next' ≤ MAX_LABELS)
    (hmono : s.next_label ≤ next') (hd : Decr p') :
    Pass1Inv bin (n + 1) ⟨s.pixels.set n v, p', next'⟩ := by
  obtain ⟨hlen, htail, hdone, ha, hb, hc⟩ := hinv
  have hnlen : n < s.pixels.length := by
    by_contra hcon
    rw [getPix_lt_length (by omega)] at hfg
    exact absurd hfg (by norm_num)
  refine ⟨by simp [List.length_set, hlen], ?_, ?_, h1, h256, hd⟩
  · intro j hj
    rw [getPix_set, if_neg (by omega)]
    exact htail j (by omega)
  · intro j hj
    rcases Nat.lt_or_ge j n with hjn | hjn
    · rw [getPix_set, if_neg (by omega)]
      exact lt_of_lt_of_le (hdone j hjn) hmono
    · have hjeq : j = n := by omega
      subst hjeq
      rw [getPix_set, if_pos ⟨rfl, hnlen⟩]
      exact hv

theorem pass1Flat_inv (w : Nat) (bin : List Nat)
    (hbin : ∀ j, getPix bin j = 0 ∨ getPix bin j = 0xFFFF) :
    ∀ n, Pass1Inv bin n (pass1Flat w bin n) := by
  intro n
  induction n with
  | zero =>
    simp only [pass1Flat, List.range_zero, List.foldl_nil]
    exact ⟨rfl, fun j _ => rfl, fun j hj => absurd hj (by omega),
      le_refl 1, by norm_num [MAX_LABELS], fun j => le_refl j⟩
  | succ n ih =>
    obtain ⟨hlen, htail, hdone, h1, h256, hdecr⟩ := ih
    rw [pass1Flat_succ]
    have hv : getPix (pass1Flat w bin n).pixels n = getPix bin n :=
      htail n (le_refl n)
    rcases hbin n with h0 | hFG
    · -- background pixel: the step is a no-op
      have hstep : labelStep w (pass1Flat w bin n) (n % w) (n / w)
          = pass1Flat w bin n := by
        unfold labelStep
        rw [if_neg (by rw [pos_index_eq, hv, h0]; norm_num)]
      rw [hstep]
      refine ⟨hlen, fun j hj => htail j (by omega), ?_, h1, h256, hdecr⟩
      intro j hj
      rcases Nat.lt_or_ge j n with hjn | hjn
      · exact hdone j hjn
      · have : j = n := by omega
        subst this
        rw [hv, h0]
        omega
    · -- foreground pixel
      have hfg : getPix (pass1Flat w bin n).pixels n = 0xFFFF := by
        rw [hv, hFG]
      have htop_lt : (if 0 < n / w then
          getPix (pass1Flat w bin n).pixels (n - w) else 0)
            < (pass1Flat w bin n).next_label := by
        by_cases hy : 0 < n / w
        · rw [if_pos hy]
          refine hdone (n - w) ?_
          have hw0 : 0 < w := by
            by_contra hc
            have : w = 0 := by omega
            subst this
            simp at hy
          have hwn : w ≤ n := (Nat.div_pos_iff (by omega : w ≠ 0)).mp hy
          omega
        · rw [if_neg hy]
          omega
      have hleft_lt : (if 0 < n % w then
          getPix (pass1Flat w bin n).pixels (n - 1) else 0)
            < (pass1Flat w bin n).next_label := by
        by_cases hx : 0 < n % w
        · rw [if_pos hx]
          refine hdone (n - 1) ?_
          have : 0 < n := by
            by_contra hc
            have : n = 0 := by omega
            subst this
            simp at hx
          omega
        · rw [if_neg hx]
          omega
      -- unfold a single labelStep at raster position n
      unfold labelStep
      rw [pos_index_eq, if_pos hfg]
      set top := (if 0 < n / w then
        getPix (pass1Flat w bin n).pixels (n - w) else 0) with htopdef
      set left := (if 0 < n % w then
        getPix (pass1Flat w bin n).pixels (n - 1) else 0) with hleftdef
      have htop_lt' : top < (pass1Flat w bin n).next_label := by
        rw [htopdef]; exact htop_lt
      have hleft_lt' : left < (pass1Flat w bin n).next_label := by
        rw [hleftdef]; exact hleft_lt
      have hmin_lt : (if top < left then top else left)
          < (pass1Flat w bin n).next_label := by
        by_cases hm : top < left
        · rw [if_pos hm]; exact htop_lt'
        · rw [if_neg hm]; exact hleft_lt'
      by_cases hc1 : top = 0 ∧ left = 0
      · rw [if_pos hc1]
        by_cases hc2 : (pass1Flat w bin n).next_label < MAX_LABELS
        · rw [if_pos hc2]
          exact pass1Inv_update ⟨hlen, htail, hdone, h1, h256, hdecr⟩ _ _ _
            hfg (by omega) (by omega) (by omega) (by omega) hdecr
        · rw [if_neg hc2]
          exact pass1Inv_update ⟨hlen, htail, hdone, h1, h256, hdecr⟩ _ _ _
            hfg (by omega) (by omega) (by omega) (by omega) hdecr
      · rw [if_neg hc1]
        by_cases hc3 : 0 < top ∧ left = 0
        · rw [if_pos hc3]
          exact pass1Inv_update ⟨hlen, htail, hdone, h1, h256, hdecr⟩ _ _ _
            hfg htop_lt' (by omega) (by omega) (by omega) hdecr
        · rw [if_neg hc3]
          by_cases hc4 : top = 0 ∧ 0 < left
          · rw [if_pos hc4]
            exact pass1Inv_update ⟨hlen, htail, hdone, h1, h256, hdecr⟩ _ _ _
              hfg hleft_lt' (by omega) (by omega) (by omega) hdecr
          · rw [if_neg hc4]
            have hdecr' : Decr (if top ≠ left then
                dsu_unite (pass1Flat w bin n).parent top left
                else (pass1Flat w bin n).parent) := by
              by_cases hne : top ≠ left
              · rw [if_pos hne]
                exact (dsu_unite_spec hdecr (by omega) (by omega)).1
              · rw [if_neg hne]
                exact hdecr
            exact pass1Inv_update ⟨hlen, htail, hdone, h1, h256, hdecr⟩ _ _ _
              hfg hmin_lt (by omega) (by omega) (by omega) hdecr'

theorem mem_getPix {l : List Nat} {v : Nat} (h : v ∈ l) :
    ∃ j, j < l.length ∧ getPix l j = v := by
  obtain ⟨j, hj, hv⟩ := List.mem_iff_getElem.mp h
  refine ⟨j, hj, ?_⟩
  rw [getPix, List.getD_eq_getElem?_getD, List.getElem?_eq_getElem hj]
  simpa using hv

theorem pass1_pixel_values (w h : Nat) (buf : List Nat)
    (hlen : buf.length = w * h) :
    ∀ v ∈ (pass1 w h (binarize w h buf)).pixels, v < MAX_LABELS := by
  intro v hv
  rw [pass1_eq_flat] at hv
  have hinv := pass1Flat_inv w (binarize w h buf)
    (binarize_vals hlen) (h * w)
  obtain ⟨hl, -, hdone, -, h256, -⟩ := hinv
  obtain ⟨j, hj, hval⟩ := mem_getPix hv
  have hjlt : j < h * w := by
    rw [hl, binarize_length, hlen, Nat.mul_comm w h] at hj
    exact hj
  have := hdone j hjlt
  omega

theorem pass2Flat_succ (w : Nat) (pix : List Nat) (par : Nat → Nat)
    (n : Nat) :
    pass2Flat w pix par (n + 1)
      = aggStep w (pass2Flat w pix par n) (n % w) (n / w) := by
  unfold pass2Flat
  rw [List.range_succ, List.foldl_append]
  simp

theorem pass2Flat_inv (w : Nat) (pix : List Nat) (par : Nat → Nat)
    (hpix : ∀ j, getPix pix j < MAX_LABELS) (hpar : Decr par) :
    ∀ n, (∀ j, n ≤ j →
        getPix (pass2Flat w pix par n).pixels j = getPix pix j) ∧
      (∀ j, j < n → getPix (pass2Flat w pix par n).pixels j < MAX_LABELS) ∧
      Decr (pass2Flat w pix par n).parent ∧
      (pass2Flat w pix par n).pixels.length = pix.length := by
  intro n
  induction n with
  | zero =>
    exact ⟨fun j _ => rfl, fun j hj => absurd hj (by omega), hpar, rfl⟩
  | succ n ih =>
    obtain ⟨htail, hdone, hdecr, hlen⟩ := ih
    rw [pass2Flat_succ]
    have hv : getPix (pass2Flat w pix par n).pixels n = getPix pix n :=
      htail n (le_refl n)
    by_cases h0 : 0 < getPix (pass2Flat w pix par n).pixels n
    · have hstep : aggStep w (pass2Flat w pix par n) (n % w) (n / w)
          = { pixels := (pass2Flat w pix par n).pixels.set n
                (dsu_find (pass2Flat w pix par n).parent
                  (getPix (pass2Flat w pix par n).pixels n)).1,
              parent := (dsu_find (pass2Flat w pix par n).parent
                (getPix (pass2Flat w pix par n).pixels n)).2,
              blobs := fun k =>
                if k = (dsu_find (pass2Flat w pix par n).parent
                    (getPix (pass2Flat w pix par n).pixels n)).1 then
                  { id := if ((pass2Flat w pix par n).blobs
                        ((dsu_find (pass2Flat w pix par n).parent
                          (getPix (pass2Flat w pix par n).pixels n)).1)).id = 0
                      then (dsu_find (pass2Flat w pix par n).parent
                        (getPix (pass2Flat w pix par n).pixels n)).1
                      else ((pass2Flat w pix par n).blobs
                        ((dsu_find (pass2Flat w pix par n).parent
                          (getPix (pass2Flat w pix par n).pixels n)).1)).id,
                    pixel_count := ((pass2Flat w pix par n).blobs
                      ((dsu_find (pass2Flat w pix par n).parent
                        (getPix (pass2Flat w pix par n).pixels n)).1)).pixel_count + 1,
                    sum_x := (((pass2Flat w pix par n).blobs
                      ((dsu_find (pass2Flat w pix par n).parent
                        (getPix (pass2Flat w pix par n).pixels n)).1)).sum_x
                          + n % w) % 2 ^ 32,
                    sum_y := (((pass2Flat w pix par n).blobs
                      ((dsu_find (pass2Flat w pix par n).parent
                        (getPix (pass2Flat w pix par n).pixels n)).1)).sum_y
                          + n / w) % 2 ^ 32,
                    sum_x2 := (((pass2Flat w pix par n).blobs
                      ((dsu_find (pass2Flat w pix par n).parent
                        (getPix (pass2Flat w pix par n).pixels n)).1)).sum_x2
                          + n % w * (n % w)) % 2 ^ 32,
                    sum_y2 := (((pass2Flat w pix par n).blobs
                      ((dsu_find (pass2Flat w pix par n).parent
                        (getPix (pass2Flat w pix par n).pixels n)).1)).sum_y2
                          + n / w * (n / w)) % 2 ^ 32,
                    sum_xy := (((pass2Flat w pix par n).blobs
                      ((dsu_find (pass2Flat w pix par n).parent
                        (getPix (pass2Flat w pix par n).pixels n)).1)).sum_xy
                          + n % w * (n / w)) % 2 ^ 32 }
                else (pass2Flat w pix par n).blobs k } := by
        unfold aggStep
        rw [pos_index_eq, if_pos h0]
      rw [hstep]
      have hvlt : getPix (pass2Flat w pix par n).pixels n < MAX_LABELS := by
        rw [hv]; exact hpix n
      obtain ⟨hfst, hfdecr, -⟩ := dsu_find_spec hdecr hvlt
      have hflt : (dsu_find (pass2Flat w pix par n).parent
          (getPix (pass2Flat w pix par n).pixels n)).1 < MAX_LABELS := by
        rw [hfst]
        have := droot_le hdecr (getPix (pass2Flat w pix par n).pixels n)
        omega
      refine ⟨?_, ?_, hfdecr, by simp [List.length_set, hlen]⟩
      · intro j hj
        rw [getPix_set, if_neg (by omega)]
        exact htail j (by omega)
      · intro j hj
        rcases Nat.lt_or_ge j n with hjn | hjn
        · rw [getPix_set, if_neg (by omega)]
          exact hdone j hjn
        · have hjeq : j = n := by omega
          subst hjeq
          rw [getPix_set]
          by_cases hin : j < (pass2Flat w pix par j).pixels.length
          · rw [if_pos ⟨rfl, hin⟩]
            exact hflt
          · rw [if_neg (by omega)]
            rw [hv]
            exact hpix j
    · have hstep : aggStep w (pass2Flat w pix par n) (n % w) (n / w)
          = pass2Flat w pix par n := by
        unfold aggStep
        rw [pos_index_eq, if_neg h0]
      rw [hstep]
      refine ⟨fun j hj => htail j (by omega), ?_, hdecr, hlen⟩
      intro j hj
      rcases Nat.lt_or_ge j n with hjn | hjn
      · exact hdone j hjn
      · have hjeq : j = n := by omega
        subst hjeq
        rw [hv]
        exact hpix j

theorem pass2_pixel_values (w h : Nat) (buf : List Nat)
    (hlen : buf.length = w * h) :
    ∀ v ∈ (pass2 w h (pass1 w h (binarize w h buf))).pixels,
      v < MAX_LABELS := by
  intro v hv
  rw [pass2_eq_flat] at hv
  obtain ⟨hl1, -, hdone1, -, h256, hdecr1⟩ :=
    pass1Flat_inv w (binarize w h buf) (binarize_vals hlen) (h * w)
  have hlen1 : (pass1 w h (binarize w h buf)).pixels.length = h * w := by
    rw [pass1_eq_flat, hl1, binarize_length, hlen, Nat.mul_comm]
  have hpix1 : ∀ j, getPix (pass1 w h (binarize w h buf)).pixels j
      < MAX_LABELS := by
    intro j
    rcases Nat.lt_or_ge j (h * w) with hj | hj
    · have := hdone1 j hj
      rw [pass1_eq_flat]
      omega
    · rw [getPix_lt_length (by omega)]
      norm_num [MAX_LABELS]
  obtain ⟨-, hdone2, -, hlen2⟩ := pass2Flat_inv w
    (pass1 w h (binarize w h buf)).pixels
    (pass1 w h (binarize w h buf)).parent hpix1
    (by rw [pass1_eq_flat]; exact hdecr1) (h * w)
  obtain ⟨j, hj, hval⟩ := mem_getPix hv
  have hjlt : j < h * w := by
    rw [hlen2, hlen1] at hj
    exact hj
  have := hdone2 j hjlt
  omega

/-! ## Dropped-pixel coupling -/

theorem getPix_pos_lt_length {l : List Nat} {j : Nat}
    (h : getPix l j = 0xFFFF) : j < l.length := by
  by_contra hcon
  rw [getPix_lt_length (by omega)] at h
  exact absurd h (by norm_num)

theorem labelStep_zero_write (w : Nat) (s : LabelState) (n : Nat)
    (hfg : getPix s.pixels n = 0xFFFF)
    (h1 : 1 ≤ s.next_label)
    (h0 : getPix (labelStep w s (n % w) (n / w)).pixels n = 0) :
    labelStep w s (n % w) (n / w)
      = ⟨s.pixels.set n 0, s.parent, s.next_label⟩ := by
  have hnlen : n < s.pixels.length := getPix_pos_lt_length hfg
  unfold labelStep at h0 ⊢
  rw [pos_index_eq] at h0 ⊢
  rw [if_pos hfg] at h0 ⊢
  set t := (if 0 < n / w then getPix s.pixels (n - w) else 0) with ht
  set l := (if 0 < n % w then getPix s.pixels (n - 1) else 0) with hl
  by_cases hc1 : t = 0 ∧ l = 0
  · rw [if_pos hc1] at h0 ⊢
    by_cases hc2 : s.next_label < MAX_LABELS
    · rw [if_pos hc2] at h0
      rw [getPix_set, if_pos ⟨rfl, hnlen⟩] at h0
      omega
    · rw [if_neg hc2]
  · rw [if_neg hc1] at h0 ⊢
    by_cases hc3 : 0 < t ∧ l = 0
    · rw [if_pos hc3] at h0
      rw [getPix_set, if_pos ⟨rfl, hnlen⟩] at h0
      omega
    · rw [if_neg hc3] at h0 ⊢
      by_cases hc4 : t = 0 ∧ 0 < l
      · rw [if_pos hc4] at h0
        rw [getPix_set, if_pos ⟨rfl, hnlen⟩] at h0
        omega
      · rw [if_neg hc4] at h0
        rw [getPix_set, if_pos ⟨rfl, hnlen⟩] at h0
        exfalso
        have hminpos : 0 < (if t < l then t else l) := by
          have : 0 < t ∧ 0 < l := by omega
          by_cases hm : t < l
          · rw [if_pos hm]; omega
          · rw [if_neg hm]; omega
        omega

theorem labelStep_noop (w : Nat) (s : LabelState) (n : Nat)
    (h : getPix s.pixels n ≠ 0xFFFF) :
    labelStep w s (n % w) (n / w) = s := by
  unfold labelStep
  rw [pos_index_eq, if_neg h]

theorem labelStep_couple (w n : Nat) (s s' : LabelState)
    (hnext : s'.next_label = s.next_label)
    (hpar : s'.parent = s.parent)
    (hfgS : getPix s.pixels n = 0xFFFF)
    (hfgS' : getPix s'.pixels n = 0xFFFF)
    (htopeq : (if 0 < n / w then getPix s'.pixels (n - w) else 0)
      = (if 0 < n / w then getPix s.pixels (n - w) else 0))
    (hlefteq : (if 0 < n % w then getPix s'.pixels (n - 1) else 0)
      = (if 0 < n % w then getPix s.pixels (n - 1) else 0)) :
    ∃ v p' next',
      labelStep w s (n % w) (n / w) = ⟨s.pixels.set n v, p', next'⟩ ∧
      labelStep w s' (n % w) (n / w) = ⟨s'.pixels.set n v, p', next'⟩ := by
  simp only [labelStep]
  rw [pos_index_eq, if_pos hfgS, if_pos hfgS',
    htopeq, hlefteq, hnext, hpar]
  set t := (if 0 < n / w then getPix s.pixels (n - w) else 0) with ht
  set l := (if 0 < n % w then getPix s.pixels (n - 1) else 0) with hl
  by_cases hc1 : t = 0 ∧ l = 0
  · rw [if_pos hc1, if_pos hc1]
    by_cases hc2 : s.next_label < MAX_LABELS
    · rw [if_pos hc2, if_pos hc2]
      exact ⟨s.next_label, s.parent, s.next_label + 1, rfl, rfl⟩
    · rw [if_neg hc2, if_neg hc2]
      exact ⟨0, s.parent, s.next_label, rfl, rfl⟩
  · rw [if_neg hc1, if_neg hc1]
    by_cases hc3 : 0 < t ∧ l = 0
    · rw [if_pos hc3, if_pos hc3]
      exact ⟨t, s.parent, s.next_label, rfl, rfl⟩
    · rw [if_neg hc3, if_neg hc3]
      by_cases hc4 : t = 0 ∧ 0 < l
      · rw [if_pos hc4, if_pos hc4]
        exact ⟨l, s.parent, s.next_label, rfl, rfl⟩
      · rw [if_neg hc4, if_neg hc4]
        exact ⟨if t < l then t else l,
          if t ≠ l then dsu_unite s.parent t l else s.parent,
          s.next_label, rfl, rfl⟩

theorem coupleInv_update {bin bin' : List Nat} {n : Nat} {s s' : LabelState}
    (hinv : CoupleInv bin bin' n s s') (v : Nat) (p' : Nat → Nat)
    (next' : Nat)
    (hfgS : getPix s.pixels n = 0xFFFF)
    (hfgS' : getPix s'.pixels n = 0xFFFF) :
    CoupleInv bin bin' (n + 1)
      ⟨s.pixels.set n v, p', next'⟩ ⟨s'.pixels.set n v, p', next'⟩ := by
  obtain ⟨hnext, hpar, hlen1, hlen2, hpref, htS, htS'⟩ := hinv
  refine ⟨rfl, rfl, by simp [List.length_set, hlen1],
    by simp [List.length_set, hlen2], ?_, ?_, ?_⟩
  · intro j hj
    rcases Nat.lt_or_ge j n with hjn | hjn
    · rw [getPix_set, getPix_set, if_neg (by omega), if_neg (by omega)]
      exact hpref j hjn
    · have hjeq : j = n := by omega
      subst hjeq
      rw [getPix_set, getPix_set,
        if_pos ⟨rfl, getPix_pos_lt_length hfgS'⟩,
        if_pos ⟨rfl, getPix_pos_lt_length hfgS⟩]
  · intro j hj
    rw [getPix_set, if_neg (by omega)]
    exact htS j (by omega)
  · intro j hj
    rw [getPix_set, if_neg (by omega)]
    exact htS' j (by omega)

theorem couple_fold (w N : Nat) (bin bin' : List Nat)
    (dropped : Nat → Bool)
    (hb : ∀ j, getPix bin j = 0 ∨ getPix bin j = 0xFFFF)
    (hbb' : ∀ j, getPix bin' j
      = if dropped j then 0 else getPix bin j)
    (hdfg : ∀ j, dropped j = true → getPix bin j = 0xFFFF)
    (hlen' : bin'.length = bin.length)
    (hdz : ∀ j, j < N → dropped j = true →
      getPix (pass1Flat w bin N).pixels j = 0) :
    ∀ n, n ≤ N →
      CoupleInv bin bin' n (pass1Flat w bin n) (pass1Flat w bin' n) := by
  intro n
  induction n with
  | zero =>
    intro h0
    exact ⟨rfl, rfl, rfl, hlen', fun j hj => absurd hj (by omega),
      fun j _ => rfl, fun j _ => rfl⟩
  | succ n ih =>
    intro hsn
    obtain ⟨hnext, hpar, hlen1, hlen2, hpref, htS, htS'⟩ := ih (by omega)
    have hvS : getPix (pass1Flat w bin n).pixels n = getPix bin n :=
      htS n (le_refl n)
    have hvS' : getPix (pass1Flat w bin' n).pixels n = getPix bin' n :=
      htS' n (le_refl n)
    rw [pass1Flat_succ, pass1Flat_succ]
    by_cases hd : dropped n = true
    · -- dropped pixel: original writes background 0 via the exhausted
      -- fresh-label branch; masked pixel is background and skipped
      have hbin'0 : getPix bin' n = 0 := by rw [hbb' n, if_pos hd]
      have hfgbin : getPix bin n = 0xFFFF := hdfg n hd
      have hfgS : getPix (pass1Flat w bin n).pixels n = 0xFFFF := by
        rw [hvS, hfgbin]
      have hstep' : labelStep w (pass1Flat w bin' n) (n % w) (n / w)
          = pass1Flat w bin' n :=
        labelStep_noop _ _ _ (by rw [hvS', hbin'0]; norm_num)
      have h1 : 1 ≤ (pass1Flat w bin n).next_label :=
        (pass1Flat_inv w bin hb n).2.2.2.1
      have hzero : getPix (labelStep w (pass1Flat w bin n)
          (n % w) (n / w)).pixels n = 0 := by
        rw [← pass1Flat_succ]
        rw [← pass1Flat_stable w bin N (n + 1) hsn n (by omega)]
        exact hdz n (by omega) hd
      have hstep := labelStep_zero_write w (pass1Flat w bin n) n hfgS h1 hzero
      rw [hstep, hstep']
      refine ⟨hnext, hpar, by simp [List.length_set, hlen1], hlen2,
        ?_, ?_, ?_⟩
      · intro j hj
        rcases Nat.lt_or_ge j n with hjn | hjn
        · rw [getPix_set, if_neg (by omega)]
          exact hpref j hjn
        · have hjeq : j = n := by omega
          subst hjeq
          rw [getPix_set, if_pos ⟨rfl, getPix_pos_lt_length hfgS⟩]
          rw [hvS', hbin'0]
      · intro j hj
        rw [getPix_set, if_neg (by omega)]
        exact htS j (by omega)
      · intro j hj
        exact htS' j (by omega)
    · -- not dropped: both sides read the same binarized value
      have hbin'eq : getPix bin' n = getPix bin n := by
        rw [hbb' n, if_neg (by simp [hd])]
      rcases hb n with h0 | hFG
      · have hstepS := labelStep_noop w (pass1Flat w bin n) n
          (by rw [hvS, h0]; norm_num)
        have hstepS' := labelStep_noop w (pass1Flat w bin' n) n
          (by rw [hvS', hbin'eq, h0]; norm_num)
        rw [hstepS, hstepS']
        refine ⟨hnext, hpar, hlen1, hlen2, ?_,
          fun j hj => htS j (by omega), fun j hj => htS' j (by omega)⟩
        intro j hj
        rcases Nat.lt_or_ge j n with hjn | hjn
        · exact hpref j hjn
        · have hjeq : j = n := by omega
          subst hjeq
          rw [hvS, hvS', hbin'eq]
      · have hfgS : getPix (pass1Flat w bin n).pixels n = 0xFFFF := by
          rw [hvS, hFG]
        have hfgS' : getPix (pass1Flat w bin' n).pixels n = 0xFFFF := by
          rw [hvS', hbin'eq, hFG]
        have htopeq : (if 0 < n / w then
            getPix (pass1Flat w bin' n).pixels (n - w) else 0)
            = (if 0 < n / w then
              getPix (pass1Flat w bin n).pixels (n - w) else 0) := by
          by_cases hy : 0 < n / w
          · rw [if_pos hy, if_pos hy]
            refine hpref (n - w) ?_
            have hw0 : 0 < w := by
              by_contra hc
              have : w = 0 := by omega
              subst this
              simp at hy
            have hwn : w ≤ n := (Nat.div_pos_iff (by omega : w ≠ 0)).mp hy
            omega
          · rw [if_neg hy, if_neg hy]
        have hlefteq : (if 0 < n % w then
            getPix (pass1Flat w bin' n).pixels (n - 1) else 0)
            = (if 0 < n % w then
              getPix (pass1Flat w bin n).pixels (n - 1) else 0) := by
          by_cases hx : 0 < n % w
          · rw [if_pos hx, if_pos hx]
            refine hpref (n - 1) ?_
            have : 0 < n := by
              by_contra hc
              have : n = 0 := by omega
              subst this
              simp at hx
            omega
          · rw [if_neg hx, if_neg hx]
        obtain ⟨v, p', next', heqS, heqS'⟩ := labelStep_couple w n
          (pass1Flat w bin n) (pass1Flat w bin' n) hnext hpar
          hfgS hfgS' htopeq hlefteq
        rw [heqS, heqS']
        exact coupleInv_update
          ⟨hnext, hpar, hlen1, hlen2, hpref, htS, htS'⟩ v p' next'
          hfgS hfgS'

theorem getPix_map_range (f : Nat → Nat) (n j : Nat) :
    getPix (List.map f (List.range n)) j = if j < n then f j else 0 := by
  rcases Nat.lt_or_ge j n with hj | hj
  · rw [if_pos hj, getPix, List.getD_eq_getElem?_getD, List.getElem?_map,
      List.getElem?_range hj]
    rfl
  · rw [if_neg (by omega)]
    exact getPix_lt_length (by simp; omega)

theorem getPix_maskDropped (fb : camera_fb_t) (j : Nat) :
    getPix (maskDropped fb).buf j
      = if j < fb.buf.length then
          (if droppedPix fb j = true then 0 else getPix fb.buf j)
        else 0 := by
  simp only [maskDropped]
  exact getPix_map_range _ _ _

theorem maskDropped_buf_length (fb : camera_fb_t) :
    (maskDropped fb).buf.length = fb.buf.length := by
  simp [maskDropped]

theorem binPix_zero : binPix 0 = 0 := by decide

theorem binarize_mask (fb : camera_fb_t)
    (hlen : fb.buf.length = fb.width * fb.height) (j : Nat) :
    getPix (binarize fb.width fb.height (maskDropped fb).buf) j
      = if droppedPix fb j = true then 0
        else getPix (binarize fb.width fb.height fb.buf) j := by
  have hmlen := maskDropped_buf_length fb
  rcases Nat.lt_or_ge j (fb.width * fb.height) with hj | hj
  · rw [getPix_binarize, if_pos ⟨hj, by omega⟩,
      getPix_maskDropped, if_pos (by omega)]
    by_cases hd : droppedPix fb j = true
    · rw [if_pos hd, if_pos hd]
      exact binPix_zero
    · rw [if_neg hd, if_neg hd, getPix_binarize, if_pos ⟨hj, by omega⟩]
  · have hb0 : getPix (binarize fb.width fb.height fb.buf) j = 0 :=
      getPix_lt_length (by rw [binarize_length]; omega)
    have hd : droppedPix fb j = false := by
      unfold droppedPix
      rw [hb0]
      simp
    rw [getPix_lt_length (by rw [binarize_length, hmlen]; omega), hd, hb0]
    simp

theorem list_eq_of_getPix {l1 l2 : List Nat} (hlen : l1.length = l2.length)
    (h : ∀ j, getPix l1 j = getPix l2 j) : l1 = l2 := by
  apply List.ext_getElem hlen
  intro n h1 h2
  have hn := h n
  rw [getPix, getPix, List.getD_eq_getElem?_getD, List.getD_eq_getElem?_getD,
    List.getElem?_eq_getElem h1, List.getElem?_eq_getElem h2] at hn
  simpa using hn

theorem pass1_maskDropped (fb : camera_fb_t)
    (hlen : fb.buf.length = fb.width * fb.height) :
    pass1 fb.width fb.height
        (binarize fb.width fb.height (maskDropped fb).buf)
      = pass1 fb.width fb.height (binarize fb.width fb.height fb.buf) := by
  set w := fb.width with hw
  set h := fb.height with hh
  set bin := binarize w h fb.buf with hbin
  set bin' := binarize w h (maskDropped fb).buf with hbin'
  have hmlen := maskDropped_buf_length fb
  have hlenb : bin.length = w * h := by rw [hbin, binarize_length, hlen]
  have hlenb' : bin'.length = bin.length := by
    rw [hbin, hbin', binarize_length, binarize_length, hmlen]
  have hb : ∀ j, getPix bin j = 0 ∨ getPix bin j = 0xFFFF :=
    binarize_vals hlen
  have hbb' : ∀ j, getPix bin' j
      = if droppedPix fb j = true then 0 else getPix bin j :=
    binarize_mask fb hlen
  have hdfg : ∀ j, droppedPix fb j = true → getPix bin j = 0xFFFF := by
    intro j hj
    unfold droppedPix at hj
    simp only [Bool.and_eq_true, beq_iff_eq] at hj
    exact hj.1
  have hdz : ∀ j, j < h * w → droppedPix fb j = true →
      getPix (pass1Flat w bin (h * w)).pixels j = 0 := by
    intro j hjN hj
    unfold droppedPix at hj
    simp only [Bool.and_eq_true, beq_iff_eq] at hj
    rw [← pass1_eq_flat]
    exact hj.2
  obtain ⟨hnext, hpar, hl1, hl2, hpref, htS, htS'⟩ :=
    couple_fold w (h * w) bin bin' (droppedPix fb)
      hb hbb' hdfg hlenb' hdz (h * w) (le_refl _)
  rw [pass1_eq_flat, pass1_eq_flat]
  have hpix : (pass1Flat w bin' (h * w)).pixels
      = (pass1Flat w bin (h * w)).pixels := by
    apply list_eq_of_getPix (by rw [hl2, hl1])
    intro j
    rcases Nat.lt_or_ge j (h * w) with hj | hj
    · exact hpref j hj
    · rw [htS j hj, htS' j hj, hbb' j]
      have hz : getPix bin j = 0 :=
        getPix_lt_length (by rw [hlenb, Nat.mul_comm]; omega)
      rw [hz]
      simp
  calc pass1Flat w bin' (h * w)
      = ⟨(pass1Flat w bin' (h * w)).pixels, (pass1Flat w bin' (h * w)).parent,
          (pass1Flat w bin' (h * w)).next_label⟩ := rfl
    _ = ⟨(pass1Flat w bin (h * w)).pixels, (pass1Flat w bin (h * w)).parent,
          (pass1Flat w bin (h * w)).next_label⟩ := by rw [hpix, hpar, hnext]
    _ = pass1Flat w bin (h * w) := rfl

/-! ## Selector lemmas -/

theorem covD_nonneg (b : blob_info_t) : 0 ≤ covD b := by
  unfold covD; positivity

theorem circ_alg_iff_sqrt (A D : ℝ) (hD : 0 ≤ D) :
    ((0 < A ∨ A ^ 2 < D) ∧ (0 ≤ A ∧ 25 * D ≤ 9 * A ^ 2)) ↔
      (1 / 2 : ℝ) ≤
        (if 0 < (A + Real.sqrt D) / 2 then
          Real.sqrt (((A - Real.sqrt D) / 2) / ((A + Real.sqrt D) / 2))
        else 0) := by
  have hs : 0 ≤ Real.sqrt D := Real.sqrt_nonneg D
  have hs2 : Real.sqrt D ^ 2 = D := Real.sq_sqrt hD
  set s : ℝ := Real.sqrt D with hsdef
  have hmax_iff : 0 < (A + s) / 2 ↔ (0 < A ∨ A ^ 2 < D) := by
    constructor
    · intro h
      by_cases hA0 : 0 < A
      · exact Or.inl hA0
      · push_neg at hA0
        refine Or.inr ?_
        have hlt : -A < s := by linarith
        nlinarith
    · rintro (h | h)
      · positivity
      · have h' : A ^ 2 < s ^ 2 := by rw [hs2]; exact h
        have : -s < A := by nlinarith
        linarith
  by_cases hmax : 0 < (A + s) / 2
  · rw [if_pos hmax]
    have hfirst : (0 < A ∨ A ^ 2 < D) := hmax_iff.mp hmax
    constructor
    · rintro ⟨-, h2, h3⟩
      have h5s3A : 5 * s ≤ 3 * A := by nlinarith
      have hlm : (1 / 4 : ℝ) ≤ ((A - s) / 2) / ((A + s) / 2) := by
        rw [le_div_iff₀ hmax]
        linarith
      calc (1 / 2 : ℝ) = Real.sqrt (1 / 4) := by
            rw [show (1 / 4 : ℝ) = (1 / 2) ^ 2 by norm_num,
              Real.sqrt_sq (by norm_num)]
        _ ≤ _ := Real.sqrt_le_sqrt hlm
    · intro hsq
      have hlm : (1 / 4 : ℝ) ≤ ((A - s) / 2) / ((A + s) / 2) := by
        by_contra hcon
        push_neg at hcon
        have hq : ((A - s) / 2) / ((A + s) / 2) < (1 / 2 : ℝ) ^ 2 := by
          rw [show ((1 : ℝ) / 2) ^ 2 = 1 / 4 by norm_num]
          exact hcon
        have := (Real.sqrt_lt' (by norm_num : (0 : ℝ) < 1 / 2)).mpr hq
        linarith
      rw [le_div_iff₀ hmax] at hlm
      have h5s3A : 5 * s ≤ 3 * A := by linarith
      have hA0 : 0 ≤ A := by linarith
      exact ⟨hfirst, hA0, by nlinarith⟩
  · rw [if_neg hmax]
    constructor
    · rintro ⟨h1, -⟩
      exact absurd (hmax_iff.mpr h1) hmax
    · intro h
      norm_num at h

theorem circOK_iff (b : blob_info_t) :
    circOK b = true ↔ specCircAccept b := by
  unfold specCircAccept
  have hbool : circOK b = true ↔
      ((0 < (covA b : ℝ) ∨ ((covA b : ℝ)) ^ 2 < (covD b : ℝ)) ∧
        (0 ≤ (covA b : ℝ) ∧ 25 * (covD b : ℝ) ≤ 9 * ((covA b : ℝ)) ^ 2)) := by
    simp only [circOK, Bool.and_eq_true, Bool.or_eq_true, decide_eq_true_eq]
    constructor
    · rintro ⟨h1, h2, h3⟩
      refine ⟨?_, by exact_mod_cast h2, by exact_mod_cast h3⟩
      rcases h1 with h | h
      · exact Or.inl (by exact_mod_cast h)
      · exact Or.inr (by exact_mod_cast h)
    · rintro ⟨h1, h2, h3⟩
      refine ⟨?_, by exact_mod_cast h2, by exact_mod_cast h3⟩
      rcases h1 with h | h
      · exact Or.inl (by exact_mod_cast h)
      · exact Or.inr (by exact_mod_cast h)
  rw [hbool]
  exact circ_alg_iff_sqrt _ _ (by exact_mod_cast covD_nonneg b)

theorem blobAccept_count {b : blob_info_t} (h : blobAccept b = true) :
    3 ≤ b.pixel_count := by
  simp only [blobAccept, Bool.and_eq_true, decide_eq_true_eq] at h
  exact h.1.2

theorem selFold_spec (blobs : Nat → blob_info_t) (n : Nat) :
    ((List.range' 1 n).foldl (selStep blobs) (-1, 0) = (-1, 0) ∧
      ∀ i, 1 ≤ i → i ≤ n → blobAccept (blobs i) = false)
    ∨ (∃ k, 1 ≤ k ∧ k ≤ n ∧ blobAccept (blobs k) = true ∧
        (List.range' 1 n).foldl (selStep blobs) (-1, 0) =
          (Int.ofNat k, (blobs k).pixel_count) ∧
        (∀ j, 1 ≤ j → j ≤ n → blobAccept (blobs j) = true →
          (blobs j).pixel_count ≤ (blobs k).pixel_count ∧
          ((blobs j).pixel_count = (blobs k).pixel_count → k ≤ j))) := by
  induction n with
  | zero =>
    left
    refine ⟨rfl, fun i h1 h2 => absurd (h1.trans h2) (by omega)⟩
  | succ n ih =>
    rw [List.range'_1_concat, List.foldl_append, List.foldl_cons, List.foldl_nil]
    rcases ih with ⟨heq, hnone⟩ | ⟨k, hk1, hkn, hacc, heq, hmax⟩
    · rw [heq]
      by_cases hA : blobAccept (blobs (1 + n)) = true
      · right
        refine ⟨1 + n, by omega, by omega, hA, ?_, ?_⟩
        · have hc : 3 ≤ (blobs (1 + n)).pixel_count := blobAccept_count hA
          simp only [selStep, hA, if_true]
          rw [if_pos (by omega : (0 : Nat) < (blobs (1 + n)).pixel_count)]
        · intro j h1 h2 hj
          rcases Nat.lt_or_ge j (1 + n) with h | h
          · exact absurd hj (by rw [hnone j h1 (by omega)]; simp)
          · have : j = 1 + n := by omega
            subst this
            exact ⟨le_refl _, fun _ => le_refl _⟩
      · left
        refine ⟨by simp [selStep, hA], fun i h1 h2 => ?_⟩
        rcases Nat.lt_or_ge i (1 + n) with h | h
        · exact hnone i h1 (by omega)
        · have : i = 1 + n := by omega
          subst this
          simpa using hA
    · rw [heq]
      by_cases hA : blobAccept (blobs (1 + n)) = true
      · by_cases hlt : (blobs k).pixel_count < (blobs (1 + n)).pixel_count
        · right
          refine ⟨1 + n, by omega, by omega, hA, ?_, ?_⟩
          · simp [selStep, hA, hlt]
          · intro j h1 h2 hj
            rcases Nat.lt_or_ge j (1 + n) with h | h
            · have := (hmax j h1 (by omega) hj).1
              exact ⟨by omega, fun hc => by omega⟩
            · have : j = 1 + n := by omega
              subst this
              exact ⟨le_refl _, fun _ => le_refl _⟩
        · right
          refine ⟨k, hk1, by omega, hacc, ?_, ?_⟩
          · simp [selStep, hA, hlt]
          · intro j h1 h2 hj
            rcases Nat.lt_or_ge j (1 + n) with h | h
            · exact hmax j h1 (by omega) hj
            · have : j = 1 + n := by omega
              subst this
              exact ⟨by omega, fun _ => by omega⟩
      · right
        refine ⟨k, hk1, by omega, hacc, ?_, ?_⟩
        · simp [selStep, hA]
        · intro j h1 h2 hj
          rcases Nat.lt_or_ge j (1 + n) with h | h
          · exact hmax j h1 (by omega) hj
          · have : j = 1 + n := by omega
            subst this
            rw [hj] at hA
            exact absurd rfl hA

theorem selectBest_spec (blobs : Nat → blob_info_t) (next : Nat) :
    (selectBest blobs next = (-1, 0) ∧
      ∀ i, 1 ≤ i → i < next → blobAccept (blobs i) = false)
    ∨ (∃ k, 1 ≤ k ∧ k < next ∧ blobAccept (blobs k) = true ∧
        selectBest blobs next = (Int.ofNat k, (blobs k).pixel_count) ∧
        (∀ j, 1 ≤ j → j < next → blobAccept (blobs j) = true →
          (blobs j).pixel_count ≤ (blobs k).pixel_count ∧
          ((blobs j).pixel_count = (blobs k).pixel_count → k ≤ j))) := by
  have h := selFold_spec blobs (next - 1)
  rcases Nat.eq_zero_or_pos next with h0 | h0
  · subst h0
    rcases h with ⟨heq, hnone⟩ | ⟨k, hk1, hkn, _⟩
    · exact Or.inl ⟨heq, fun i h1 h2 => by omega⟩
    · omega
  · rcases h with ⟨heq, hnone⟩ | ⟨k, hk1, hkn, hacc, heq, hmax⟩
    · exact Or.inl ⟨heq, fun i h1 h2 => hnone i h1 (by omega)⟩
    · exact Or.inr ⟨k, hk1, by omega, hacc, heq,
        fun j h1 h2 hj => hmax j h1 (by omega) hj⟩

/-! ## Claim theorems -/

/-- C6: after binarization, the pixel at any in-frame position `j` is
`0xFFFF` iff all three channel intensities of its original RGB565 value —
each reconstructed from its own bit-field by left-shift padding to 8-bit
range (`R5·8`, `G6·4`, `B5·8`), with no cross-talk between fields — are
strictly greater than 230, and is `0` otherwise; the binarization keeps
the buffer length (it operates in place on the same buffer). -/
theorem C6_binarization_decodes_and_thresholds (w h : Nat) (buf : List Nat)
    (j : Nat) (hj : j < w * h) (hlen : buf.length = w * h) :
    (binarize w h buf).length = buf.length ∧
    decode_r (getPix buf j) = fieldR5 (getPix buf j) * 8 ∧
    decode_g (getPix buf j) = fieldG6 (getPix buf j) * 4 ∧
    decode_b (getPix buf j) = fieldB5 (getPix buf j) * 8 ∧
    getPix (binarize w h buf) j =
      (if 230 < fieldR5 (getPix buf j) * 8 ∧ 230 < fieldG6 (getPix buf j) * 4
          ∧ 230 < fieldB5 (getPix buf j) * 8 then 0xFFFF else 0) := by
  refine ⟨binarize_length w h buf, decode_r_eq _, decode_g_eq _, decode_b_eq _, ?_⟩
  rw [getPix_binarize, if_pos ⟨hj, by omega⟩, binPix_eq]

/-- Witness for C6 at a concrete bright pixel in a 1×1 frame. -/
theorem C6_binarization_decodes_and_thresholds_witness :
    (binarize 1 1 [0xFFFF]).length = [0xFFFF].length ∧
    decode_r (getPix [0xFFFF] 0) = fieldR5 (getPix [0xFFFF] 0) * 8 ∧
    decode_g (getPix [0xFFFF] 0) = fieldG6 (getPix [0xFFFF] 0) * 4 ∧
    decode_b (getPix [0xFFFF] 0) = fieldB5 (getPix [0xFFFF] 0) * 8 ∧
    getPix (binarize 1 1 [0xFFFF]) 0 =
      (if 230 < fieldR5 (getPix [0xFFFF] 0) * 8
          ∧ 230 < fieldG6 (getPix [0xFFFF] 0) * 4
          ∧ 230 < fieldB5 (getPix [0xFFFF] 0) * 8 then 0xFFFF else 0) :=
  C6_binarization_decodes_and_thresholds 1 1 [0xFFFF] 0 (by decide) (by decide)

/-- C3: a canonical blob of the table (one with `id ≠ 0` set by the
aggregation pass, characterized here by `id ≠ 0 ↔ 0 < pixel_count`) is
accepted by the candidate selector iff its `pixel_count` is at least 3 and
its circularity `sqrt(lambda_min/lambda_max)` (0 when `lambda_max ≤ 0`) is
at least 1/2; moreover the best-blob scan `selectBest` returns −1 iff no
blob is accepted, and otherwise returns an accepted blob of maximal
`pixel_count`, breaking ties towards the lowest canonical label id. -/
theorem C3_selector_accept_iff_and_argmax (blobs : Nat → blob_info_t)
    (next : Nat)
    (hid : ∀ i, 1 ≤ i → i < next →
      ((blobs i).id ≠ 0 ↔ 0 < (blobs i).pixel_count)) :
    (∀ i, 1 ≤ i → i < next →
      (blobAccept (blobs i) = true ↔
        (3 ≤ (blobs i).pixel_count ∧ specCircAccept (blobs i)))) ∧
    ((selectBest blobs next).1 = -1 ↔
       ∀ i, 1 ≤ i → i < next → blobAccept (blobs i) = false) ∧
    (∀ k : Nat, (selectBest blobs next).1 = Int.ofNat k →
       1 ≤ k ∧ k < next ∧ blobAccept (blobs k) = true ∧
       ∀ j, 1 ≤ j → j < next → blobAccept (blobs j) = true →
         (blobs j).pixel_count ≤ (blobs k).pixel_count ∧
         ((blobs j).pixel_count = (blobs k).pixel_count → k ≤ j)) := by
  refine ⟨?_, ?_, ?_⟩
  · intro i h1 h2
    rw [← circOK_iff]
    constructor
    · intro h
      simp only [blobAccept, Bool.and_eq_true, decide_eq_true_eq] at h
      exact ⟨h.1.2, h.2⟩
    · rintro ⟨hc, hcirc⟩
      have hid' : (blobs i).id ≠ 0 := (hid i h1 h2).mpr (by omega)
      simp only [blobAccept, Bool.and_eq_true, decide_eq_true_eq]
      exact ⟨⟨hid', hc⟩, hcirc⟩
  · rcases selectBest_spec blobs next with ⟨heq, hnone⟩ | ⟨k, _, _, hacc, heq, _⟩
    · rw [heq]
      simp only [true_iff]
      exact hnone
    · rw [heq]
      constructor
      · intro h
        simp at h
      · intro h
        exact absurd hacc (by rw [h _ (by assumption) (by assumption)]; simp)
  · intro k hk
    rcases selectBest_spec blobs next with ⟨heq, hnone⟩ | ⟨k', h1', h2', hacc, heq, hmax⟩
    · rw [heq] at hk
      exact absurd hk (by simp)
    · rw [heq] at hk
      have hkk : k' = k := by
        have h2 : (Int.ofNat k' : Int) = Int.ofNat k := hk
        simpa using h2
      subst hkk
      exact ⟨h1', h2', hacc, hmax⟩

/-- Witness for C3: the blob table of a frame whose only blob is a filled
2×2 square (pixel_count 4, circularity 1). -/
theorem C3_selector_accept_iff_and_argmax_witness :
    (∀ i, 1 ≤ i → i < 2 →
      (((fun j => if j = 1 then (⟨1, 4, 6, 6, 10, 10, 9⟩ : blob_info_t)
          else blobZero) i).id ≠ 0 ↔
        0 < ((fun j => if j = 1 then (⟨1, 4, 6, 6, 10, 10, 9⟩ : blob_info_t)
          else blobZero) i).pixel_count)) ∧
    ((∀ i, 1 ≤ i → i < 2 →
      (blobAccept ((fun j => if j = 1 then (⟨1, 4, 6, 6, 10, 10, 9⟩ : blob_info_t)
          else blobZero) i) = true ↔
        (3 ≤ ((fun j => if j = 1 then (⟨1, 4, 6, 6, 10, 10, 9⟩ : blob_info_t)
          else blobZero) i).pixel_count ∧
          specCircAccept ((fun j => if j = 1 then (⟨1, 4, 6, 6, 10, 10, 9⟩ : blob_info_t)
            else blobZero) i)))) ∧
    ((selectBest (fun j => if j = 1 then (⟨1, 4, 6, 6, 10, 10, 9⟩ : blob_info_t)
        else blobZero) 2).1 = -1 ↔
       ∀ i, 1 ≤ i → i < 2 →
         blobAccept ((fun j => if j = 1 then (⟨1, 4, 6, 6, 10, 10, 9⟩ : blob_info_t)
           else blobZero) i) = false) ∧
    (∀ k : Nat,
       (selectBest (fun j => if j = 1 then (⟨1, 4, 6, 6, 10, 10, 9⟩ : blob_info_t)
         else blobZero) 2).1 = Int.ofNat k →
       1 ≤ k ∧ k < 2 ∧
       blobAccept ((fun j => if j = 1 then (⟨1, 4, 6, 6, 10, 10, 9⟩ : blob_info_t)
         else blobZero) k) = true ∧
       ∀ j', 1 ≤ j' → j' < 2 →
         blobAccept ((fun j => if j = 1 then (⟨1, 4, 6, 6, 10, 10, 9⟩ : blob_info_t)
           else blobZero) j') = true →
         ((fun j => if j = 1 then (⟨1, 4, 6, 6, 10, 10, 9⟩ : blob_info_t)
           else blobZero) j').pixel_count ≤
           ((fun j => if j = 1 then (⟨1, 4, 6, 6, 10, 10, 9⟩ : blob_info_t)
             else blobZero) k).pixel_count ∧
         (((fun j => if j = 1 then (⟨1, 4, 6, 6, 10, 10, 9⟩ : blob_info_t)
             else blobZero) j').pixel_count =
           ((fun j => if j = 1 then (⟨1, 4, 6, 6, 10, 10, 9⟩ : blob_info_t)
             else blobZero) k).pixel_count → k ≤ j'))) :=
  ⟨fun i h1 h2 => by
      have h : i = 1 := by omega
      subst h
      decide,
   C3_selector_accept_iff_and_argmax _ 2
     (fun i h1 h2 => by
       have h : i = 1 := by omega
       subst h
       decide)⟩

/-- C2 (amended): only the pixel-format half of the input contract is
enforced: for a frame whose pixel format is not RGB565,
`find_light_source` fails immediately with return value −1, performs no
mutation of the caller's pixel buffer, and writes nothing into the result
struct (and leaves the global parent state untouched).  (Null/empty
buffers are not checked; see the counterexample theorem.) -/
theorem C2_format_violation_fail_fast (p : Nat → Nat)
    (r : light_source_result_t) (fb : camera_fb_t)
    (hfmt : fb.format ≠ PIXFORMAT_RGB565) :
    find_light_source p r fb = ⟨-1, r, fb.buf, p⟩ := by
  simp [find_light_source, hfmt]

/-- Witness for C2 at a concrete non-RGB565 frame. -/
theorem C2_format_violation_fail_fast_witness :
    (⟨3, 2, 2, [0, 0, 0, 0]⟩ : camera_fb_t).format ≠ PIXFORMAT_RGB565 ∧
    find_light_source dsu_init ⟨5, 5, 5⟩ ⟨3, 2, 2, [0, 0, 0, 0]⟩ =
      ⟨-1, ⟨5, 5, 5⟩, [0, 0, 0, 0], dsu_init⟩ :=
  ⟨by decide,
   C2_format_violation_fail_fast dsu_init ⟨5, 5, 5⟩ ⟨3, 2, 2, [0, 0, 0, 0]⟩
     (by decide)⟩

/-- C2 counterexample: an empty buffer in RGB565 format is *not* rejected:
the call runs the (empty) pipeline to the end and writes the sentinel
result `{0, 0, 0}` into the caller's result struct, so "fails immediately
… and writes nothing into the result struct" is false for the null/empty
half of the claimed input contract. -/
theorem C2_empty_buffer_not_rejected_cx :
    (find_light_source dsu_init ⟨5, 5, 5⟩
        ⟨PIXFORMAT_RGB565, 0, 0, []⟩).result = ⟨0, 0, 0⟩ ∧
    (⟨0, 0, 0⟩ : light_source_result_t) ≠ ⟨5, 5, 5⟩ := by
  constructor
  · decide
  · decide

/-- C1 (amended): for an RGB565 frame in which no blob satisfies the
acceptance condition (`pixel_count ≥ 3` and circularity ≥ 1/2),
`find_light_source` writes the explicit sentinel `x = 0, y = 0,
pixel_count = 0` into the result struct — but it returns −1, the *same*
return value as the wrong-pixel-format failure, so the two outcomes are
not distinguished by the return value; they are distinguishable only in
that a wrong-format call leaves the caller's result struct untouched. -/
theorem C1_no_blob_sentinel_with_error_return (p : Nat → Nat)
    (r : light_source_result_t) (fb : camera_fb_t)
    (hfmt : fb.format = PIXFORMAT_RGB565)
    (hnone : ∀ i, 1 ≤ i →
      i < (pass1 fb.width fb.height (binarize fb.width fb.height fb.buf)).next_label →
      ¬(3 ≤ ((pass2 fb.width fb.height
            (pass1 fb.width fb.height (binarize fb.width fb.height fb.buf))).blobs
              i).pixel_count ∧
        specCircAccept ((pass2 fb.width fb.height
            (pass1 fb.width fb.height (binarize fb.width fb.height fb.buf))).blobs
              i))) :
    (find_light_source p r fb).ret = -1 ∧
    (find_light_source p r fb).result = ⟨0, 0, 0⟩ ∧
    (∀ fb' r', fb'.format ≠ PIXFORMAT_RGB565 →
      (find_light_source p r' fb').ret = -1 ∧
      (find_light_source p r' fb').result = r') := by
  have hsel : (selectBest
      ((pass2 fb.width fb.height
        (pass1 fb.width fb.height (binarize fb.width fb.height fb.buf))).blobs)
      ((pass1 fb.width fb.height (binarize fb.width fb.height fb.buf)).next_label)).1
      = -1 := by
    rcases selectBest_spec
        ((pass2 fb.width fb.height
          (pass1 fb.width fb.height (binarize fb.width fb.height fb.buf))).blobs)
        ((pass1 fb.width fb.height (binarize fb.width fb.height fb.buf)).next_label)
      with ⟨heq, -⟩ | ⟨k, hk1, hk2, hacc, -, -⟩
    · rw [heq]
    · exfalso
      refine hnone k hk1 hk2 ⟨blobAccept_count hacc, ?_⟩
      rw [← circOK_iff]
      simp only [blobAccept, Bool.and_eq_true] at hacc
      exact hacc.2
  refine ⟨?_, ?_, ?_⟩
  · simp [find_light_source, hfmt, hsel]
  · simp [find_light_source, hfmt, hsel]
  · intro fb' r' h'
    simp [find_light_source, h']

/-- Witness for C1 at a concrete all-dark 1×1 RGB565 frame. -/
theorem C1_no_blob_sentinel_with_error_return_witness :
    ((⟨PIXFORMAT_RGB565, 1, 1, [0]⟩ : camera_fb_t).format = PIXFORMAT_RGB565) ∧
    (find_light_source dsu_init ⟨0, 0, 0⟩ ⟨PIXFORMAT_RGB565, 1, 1, [0]⟩).ret = -1 ∧
    (find_light_source dsu_init ⟨0, 0, 0⟩ ⟨PIXFORMAT_RGB565, 1, 1, [0]⟩).result
      = ⟨0, 0, 0⟩ := by
  have hnext : (pass1 (1 : Nat) 1 (binarize 1 1 [0])).next_label = 1 := by decide
  have h := C1_no_blob_sentinel_with_error_return dsu_init ⟨0, 0, 0⟩
    ⟨PIXFORMAT_RGB565, 1, 1, [0]⟩ rfl
    (by intro i h1 h2; rw [hnext] at h2; omega)
  exact ⟨rfl, h.1, h.2.1⟩

/-- C1 counterexample: on a 1×1 all-dark RGB565 frame (a successful run
that finds nothing) the return value equals the return value of a call
that could not run at all (wrong pixel format): both are −1, refuting
"reported as a valid non-error outcome distinguishable from the failure
reported when the pipeline could not run" at the level of the reported
status. -/
theorem C1_same_return_as_format_failure_cx :
    (find_light_source dsu_init ⟨0, 0, 0⟩ ⟨PIXFORMAT_RGB565, 1, 1, [0]⟩).ret
      = (find_light_source dsu_init ⟨0, 0, 0⟩ ⟨1, 1, 1, [0]⟩).ret ∧
    (find_light_source dsu_init ⟨0, 0, 0⟩ ⟨PIXFORMAT_RGB565, 1, 1, [0]⟩).ret
      = -1 ∧
    (find_light_source dsu_init ⟨0, 0, 0⟩ ⟨PIXFORMAT_RGB565, 1, 1, [0]⟩).result
      = ⟨0, 0, 0⟩ := by
  refine ⟨?_, ?_, ?_⟩ <;> decide

/-- C9: the returned status, the result struct and the processed buffer of
`find_light_source` do not depend on the incoming state of the global DSU
`parent` array — the only working state that survives across invocations —
because the pipeline re-initializes the forest (`dsu_init`), the label
counter and the blob table at every call; hence two invocations on frames
with identical pixel contents, width, height and format return identical
`light_source_result_t` values. -/
theorem C9_result_independent_of_carryover_state (fb : camera_fb_t)
    (r : light_source_result_t) (p1 p2 : Nat → Nat) :
    (find_light_source p1 r fb).ret = (find_light_source p2 r fb).ret ∧
    (find_light_source p1 r fb).result = (find_light_source p2 r fb).result ∧
    (find_light_source p1 r fb).buf = (find_light_source p2 r fb).buf := by
  by_cases h : fb.format ≠ PIXFORMAT_RGB565 <;>
    simp [find_light_source, h]

/-- C4: during the first raster-scan pass, a foreground pixel at `(x, y)`
is labeled exactly by the specified rule over its up/left neighbors: no
labeled neighbor gives a fresh label from the counter (or background 0
with the counter not incremented once the counter has reached capacity
`MAX_LABELS`); exactly one labeled neighbor propagates that label; two
equal labels propagate that label (no union); two different labels record
a union of the two labels in the forest and assign the pixel the smaller
label.  The parent forest and counter are untouched in all but the stated
cases. -/
theorem C4_first_pass_labeling_rule (w : Nat) (s : LabelState) (x y : Nat)
    (hfg : getPix s.pixels (y * w + x) = 0xFFFF)
    (top left : Nat)
    (htop : top = (if 0 < y then getPix s.pixels (y * w + x - w) else 0))
    (hleft : left = (if 0 < x then getPix s.pixels (y * w + x - 1) else 0)) :
    ((top = 0 ∧ left = 0 ∧ s.next_label < MAX_LABELS) →
      labelStep w s x y =
        ⟨s.pixels.set (y * w + x) s.next_label, s.parent, s.next_label + 1⟩) ∧
    ((top = 0 ∧ left = 0 ∧ MAX_LABELS ≤ s.next_label) →
      labelStep w s x y =
        ⟨s.pixels.set (y * w + x) 0, s.parent, s.next_label⟩) ∧
    ((0 < top ∧ left = 0) →
      labelStep w s x y =
        ⟨s.pixels.set (y * w + x) top, s.parent, s.next_label⟩) ∧
    ((top = 0 ∧ 0 < left) →
      labelStep w s x y =
        ⟨s.pixels.set (y * w + x) left, s.parent, s.next_label⟩) ∧
    ((0 < top ∧ 0 < left ∧ top = left) →
      labelStep w s x y =
        ⟨s.pixels.set (y * w + x) top, s.parent, s.next_label⟩) ∧
    ((0 < top ∧ 0 < left ∧ top ≠ left) →
      labelStep w s x y =
        ⟨s.pixels.set (y * w + x) (min top left),
         dsu_unite s.parent top left, s.next_label⟩) := by
  simp only [labelStep, hfg, if_pos rfl, ← htop, ← hleft]
  refine ⟨?_, ?_, ?_, ?_, ?_, ?_⟩
  · rintro ⟨h1, h2, h3⟩
    simp [h1, h2, h3]
  · rintro ⟨h1, h2, h3⟩
    have h4 : ¬ s.next_label < MAX_LABELS := by omega
    simp [h1, h2, h4]
  · rintro ⟨h1, h2⟩
    have ht : ¬ top = 0 := by omega
    simp [h1, h2, ht]
  · rintro ⟨h1, h2⟩
    have hl : ¬ left = 0 := by omega
    simp [h1, h2, hl]
  · rintro ⟨h1, h2, h3⟩
    subst h3
    have ht : ¬ top = 0 := by omega
    simp [ht]
  · rintro ⟨h1, h2, h3⟩
    have h4 : ¬ (top = 0 ∧ left = 0) := by omega
    have h5 : ¬ (0 < top ∧ left = 0) := by omega
    have h6 : ¬ (top = 0 ∧ 0 < left) := by omega
    have h7 : (if top < left then top else left) = min top left := by
      rcases Nat.lt_or_ge top left with h | h
      · rw [if_pos h]; omega
      · rw [if_neg (by omega)]; omega
    simp only [if_neg h4, if_neg h5, if_neg h6, if_pos h3, h7, if_true]

/-- Witness for C4 at a 1×1 foreground frame state (fresh-label case and
all other cases instantiated). -/
theorem C4_first_pass_labeling_rule_witness :
    ((0 = 0 ∧ 0 = 0 ∧ (⟨[0xFFFF], dsu_init, 1⟩ : LabelState).next_label < MAX_LABELS) →
      labelStep 1 ⟨[0xFFFF], dsu_init, 1⟩ 0 0 =
        ⟨([0xFFFF] : List Nat).set (0 * 1 + 0) (⟨[0xFFFF], dsu_init, 1⟩ : LabelState).next_label,
         dsu_init, (⟨[0xFFFF], dsu_init, 1⟩ : LabelState).next_label + 1⟩) ∧
    ((0 = 0 ∧ 0 = 0 ∧ MAX_LABELS ≤ (⟨[0xFFFF], dsu_init, 1⟩ : LabelState).next_label) →
      labelStep 1 ⟨[0xFFFF], dsu_init, 1⟩ 0 0 =
        ⟨([0xFFFF] : List Nat).set (0 * 1 + 0) 0, dsu_init,
         (⟨[0xFFFF], dsu_init, 1⟩ : LabelState).next_label⟩) ∧
    ((0 < 0 ∧ 0 = 0) →
      labelStep 1 ⟨[0xFFFF], dsu_init, 1⟩ 0 0 =
        ⟨([0xFFFF] : List Nat).set (0 * 1 + 0) 0, dsu_init,
         (⟨[0xFFFF], dsu_init, 1⟩ : LabelState).next_label⟩) ∧
    ((0 = 0 ∧ 0 < 0) →
      labelStep 1 ⟨[0xFFFF], dsu_init, 1⟩ 0 0 =
        ⟨([0xFFFF] : List Nat).set (0 * 1 + 0) 0, dsu_init,
         (⟨[0xFFFF], dsu_init, 1⟩ : LabelState).next_label⟩) ∧
    ((0 < 0 ∧ 0 < 0 ∧ 0 = 0) →
      labelStep 1 ⟨[0xFFFF], dsu_init, 1⟩ 0 0 =
        ⟨([0xFFFF] : List Nat).set (0 * 1 + 0) 0, dsu_init,
         (⟨[0xFFFF], dsu_init, 1⟩ : LabelState).next_label⟩) ∧
    ((0 < 0 ∧ 0 < 0 ∧ (0 : Nat) ≠ 0) →
      labelStep 1 ⟨[0xFFFF], dsu_init, 1⟩ 0 0 =
        ⟨([0xFFFF] : List Nat).set (0 * 1 + 0) (min 0 0),
         dsu_unite dsu_init 0 0,
         (⟨[0xFFFF], dsu_init, 1⟩ : LabelState).next_label⟩) :=
  C4_first_pass_labeling_rule 1 ⟨[0xFFFF], dsu_init, 1⟩ 0 0 (by decide) 0 0
    (by decide) (by decide)

/-- C5: after `dsu_init` followed by any sequence of `dsu_unite` calls
with arguments in `1..MAX_LABELS-1`, `dsu_find` returns, for every label
`a` in range, a root that (i) lies in `a`'s equivalence class (the
equivalence closure of the united pairs), (ii) is a lower bound of that
class — i.e. it is the numerically minimum label of the class, (iii) is
the same for every member of the class, and (iv) does not depend on the
order of the unions (any reordering of the pairs yields the same root). -/
theorem C5_union_find_min_root (ops : List (Nat × Nat))
    (hv : ∀ pr ∈ ops, (1 ≤ pr.1 ∧ pr.1 < MAX_LABELS) ∧
      (1 ≤ pr.2 ∧ pr.2 < MAX_LABELS))
    (a : Nat) (ha1 : 1 ≤ a) (ha2 : a < MAX_LABELS) :
    EqvCl (fun x y => (x, y) ∈ ops) a ((dsu_find (applyOps ops) a).1) ∧
    (∀ b, EqvCl (fun x y => (x, y) ∈ ops) a b →
      (dsu_find (applyOps ops) a).1 ≤ b) ∧
    (∀ b, EqvCl (fun x y => (x, y) ∈ ops) a b →
      (dsu_find (applyOps ops) a).1 = (dsu_find (applyOps ops) b).1) ∧
    (∀ ops' : List (Nat × Nat), (∀ pr, pr ∈ ops ↔ pr ∈ ops') →
      (dsu_find (applyOps ops') a).1 = (dsu_find (applyOps ops) a).1) := by
  have hv' : ∀ pr ∈ ops, pr.1 < MAX_LABELS ∧ pr.2 < MAX_LABELS :=
    fun pr hpr => ⟨(hv pr hpr).1.2, (hv pr hpr).2.2⟩
  obtain ⟨hd, hmem, hsame⟩ := applyOps_rootsMin ops hv'
  have hfind : ∀ {x : Nat}, x < MAX_LABELS →
      (dsu_find (applyOps ops) x).1 = droot (applyOps ops) x :=
    fun hx => (dsu_find_spec hd hx).1
  refine ⟨?_, ?_, ?_, ?_⟩
  · rw [hfind ha2]
    exact hmem a
  · intro b hb
    rw [hfind ha2]
    rw [hsame a b hb]
    exact droot_le hd b
  · intro b hb
    have hblt : b < MAX_LABELS := (EqvCl_mem_bound hv' hb).mp ha2
    rw [hfind ha2, hfind hblt]
    exact hsame a b hb
  · intro ops' hiff
    have hv2' : ∀ pr ∈ ops', pr.1 < MAX_LABELS ∧ pr.2 < MAX_LABELS :=
      fun pr hpr => hv' pr ((hiff pr).mpr hpr)
    obtain ⟨hd2, hmem2, hsame2⟩ := applyOps_rootsMin ops' hv2'
    have hfind2 : ∀ {x : Nat}, x < MAX_LABELS →
        (dsu_find (applyOps ops') x).1 = droot (applyOps ops') x :=
      fun hx => (dsu_find_spec hd2 hx).1
    have htrans1 : ∀ {x y}, EqvCl (fun x y => (x, y) ∈ ops') x y →
        EqvCl (fun x y => (x, y) ∈ ops) x y :=
      EqvCl_mono (fun x y hxy => EqvCl.base ((hiff _).mpr hxy))
    have htrans2 : ∀ {x y}, EqvCl (fun x y => (x, y) ∈ ops) x y →
        EqvCl (fun x y => (x, y) ∈ ops') x y :=
      EqvCl_mono (fun x y hxy => EqvCl.base ((hiff _).mp hxy))
    have h1 : droot (applyOps ops) a ≤ droot (applyOps ops') a := by
      have := hsame a _ (htrans1 (hmem2 a))
      rw [this]
      exact droot_le hd _
    have h2 : droot (applyOps ops') a ≤ droot (applyOps ops) a := by
      have := hsame2 a _ (htrans2 (hmem a))
      rw [this]
      exact droot_le hd2 _
    rw [hfind ha2, hfind2 ha2]
    omega

/-- Witness for C5: the single union `dsu_unite 2 1`, queried at label 2
(its root must be the minimum of the class, namely 1). -/
theorem C5_union_find_min_root_witness :
    (∀ pr ∈ [((2 : Nat), (1 : Nat))], (1 ≤ pr.1 ∧ pr.1 < MAX_LABELS) ∧
      (1 ≤ pr.2 ∧ pr.2 < MAX_LABELS)) ∧
    ((1 : Nat) ≤ 2) ∧ ((2 : Nat) < MAX_LABELS) ∧
    (EqvCl (fun x y => (x, y) ∈ [((2 : Nat), (1 : Nat))]) 2
      ((dsu_find (applyOps [(2, 1)]) 2).1) ∧
    (∀ b, EqvCl (fun x y => (x, y) ∈ [((2 : Nat), (1 : Nat))]) 2 b →
      (dsu_find (applyOps [(2, 1)]) 2).1 ≤ b) ∧
    (∀ b, EqvCl (fun x y => (x, y) ∈ [((2 : Nat), (1 : Nat))]) 2 b →
      (dsu_find (applyOps [(2, 1)]) 2).1 = (dsu_find (applyOps [(2, 1)]) b).1) ∧
    (∀ ops' : List (Nat × Nat), (∀ pr, pr ∈ [((2 : Nat), (1 : Nat))] ↔ pr ∈ ops') →
      (dsu_find (applyOps ops') 2).1 = (dsu_find (applyOps [(2, 1)]) 2).1)) :=
  ⟨by decide, by decide, by decide,
   C5_union_find_min_root [(2, 1)] (by decide) 2 (by decide) (by decide)⟩

theorem blob_info_ext {a b : blob_info_t} (h1 : a.id = b.id)
    (h2 : a.pixel_count = b.pixel_count) (h3 : a.sum_x = b.sum_x)
    (h4 : a.sum_y = b.sum_y) (h5 : a.sum_x2 = b.sum_x2)
    (h6 : a.sum_y2 = b.sum_y2) (h7 : a.sum_xy = b.sum_xy) : a = b := by
  cases a; cases b
  simp_all

/-- C10: for frames no larger than QQVGA (width ≤ 160, height ≤ 120), the
`uint32_t` moment accumulators `sum_x, sum_y, sum_x2, sum_y2, sum_xy`
never wrap modulo `2 ^ 32` during the aggregation pass: every blob record
of the second pass equals the corresponding record of the exact
(unbounded-accumulator) reference pass, so each accumulator holds the
exact mathematical sum over the blob's pixel coordinates. -/
theorem C10_accumulators_exact_on_qqvga (fb : camera_fb_t)
    (hw : fb.width ≤ 160) (hh : fb.height ≤ 120) (k : Nat) :
    (pass2 fb.width fb.height
      (pass1 fb.width fb.height (binarize fb.width fb.height fb.buf))).blobs k
      = (pass2E fb.width fb.height
        (pass1 fb.width fb.height (binarize fb.width fb.height fb.buf))).blobs k := by
  obtain ⟨-, -, hblob⟩ := pass2_aggInv fb.width fb.height
    (pass1 fb.width fb.height (binarize fb.width fb.height fb.buf))
  obtain ⟨hid, hcnt, hsx, hsy, hsx2, hsy2, hsxy, hcn, hbx, hby, hbx2, hby2, hbxy⟩ :=
    hblob k
  have harea : fb.height * fb.width ≤ 19200 := by
    calc fb.height * fb.width ≤ 120 * 160 := Nat.mul_le_mul hh hw
      _ = 19200 := by norm_num
  have hcnt' : ((pass2E fb.width fb.height
      (pass1 fb.width fb.height (binarize fb.width fb.height fb.buf))).blobs
        k).pixel_count ≤ 19200 := le_trans hcn harea
  have hw1 : fb.width - 1 ≤ 159 := by omega
  have hh1 : fb.height - 1 ≤ 119 := by omega
  refine blob_info_ext hid hcnt ?_ ?_ ?_ ?_ ?_
  · rw [hsx]
    have : (((pass2E _ _ _).blobs k).sum_x) ≤ 19200 * 159 :=
      le_trans hbx (Nat.mul_le_mul hcnt' hw1)
    omega
  · rw [hsy]
    have : (((pass2E _ _ _).blobs k).sum_y) ≤ 19200 * 119 :=
      le_trans hby (Nat.mul_le_mul hcnt' hh1)
    omega
  · rw [hsx2]
    have : (((pass2E _ _ _).blobs k).sum_x2) ≤ 19200 * (159 * 159) :=
      le_trans hbx2 (Nat.mul_le_mul hcnt' (Nat.mul_le_mul hw1 hw1))
    omega
  · rw [hsy2]
    have : (((pass2E _ _ _).blobs k).sum_y2) ≤ 19200 * (119 * 119) :=
      le_trans hby2 (Nat.mul_le_mul hcnt' (Nat.mul_le_mul hh1 hh1))
    omega
  · rw [hsxy]
    have : (((pass2E _ _ _).blobs k).sum_xy) ≤ 19200 * (159 * 119) :=
      le_trans hbxy (Nat.mul_le_mul hcnt' (Nat.mul_le_mul hw1 hh1))
    omega

/-- Witness for C10 at a concrete 1×1 bright frame. -/
theorem C10_accumulators_exact_on_qqvga_witness :
    (⟨PIXFORMAT_RGB565, 1, 1, [0xFFFF]⟩ : camera_fb_t).width ≤ 160 ∧
    (⟨PIXFORMAT_RGB565, 1, 1, [0xFFFF]⟩ : camera_fb_t).height ≤ 120 ∧
    (pass2 (⟨PIXFORMAT_RGB565, 1, 1, [0xFFFF]⟩ : camera_fb_t).width
      (⟨PIXFORMAT_RGB565, 1, 1, [0xFFFF]⟩ : camera_fb_t).height
      (pass1 (⟨PIXFORMAT_RGB565, 1, 1, [0xFFFF]⟩ : camera_fb_t).width
        (⟨PIXFORMAT_RGB565, 1, 1, [0xFFFF]⟩ : camera_fb_t).height
        (binarize (⟨PIXFORMAT_RGB565, 1, 1, [0xFFFF]⟩ : camera_fb_t).width
          (⟨PIXFORMAT_RGB565, 1, 1, [0xFFFF]⟩ : camera_fb_t).height
          (⟨PIXFORMAT_RGB565, 1, 1, [0xFFFF]⟩ : camera_fb_t).buf))).blobs 1
      = (pass2E (⟨PIXFORMAT_RGB565, 1, 1, [0xFFFF]⟩ : camera_fb_t).width
        (⟨PIXFORMAT_RGB565, 1, 1, [0xFFFF]⟩ : camera_fb_t).height
        (pass1 (⟨PIXFORMAT_RGB565, 1, 1, [0xFFFF]⟩ : camera_fb_t).width
          (⟨PIXFORMAT_RGB565, 1, 1, [0xFFFF]⟩ : camera_fb_t).height
          (binarize (⟨PIXFORMAT_RGB565, 1, 1, [0xFFFF]⟩ : camera_fb_t).width
            (⟨PIXFORMAT_RGB565, 1, 1, [0xFFFF]⟩ : camera_fb_t).height
            (⟨PIXFORMAT_RGB565, 1, 1, [0xFFFF]⟩ : camera_fb_t).buf))).blobs 1 :=
  ⟨by decide, by decide,
   C10_accumulators_exact_on_qqvga ⟨PIXFORMAT_RGB565, 1, 1, [0xFFFF]⟩
     (by decide) (by decide) 1⟩

/-- C7: on every successful run (`find_light_source` returns 0) over a
frame of positive width and height, the returned centroid comes from the
winning blob by truncating integer division `res = Σ/N`, the normalized
coordinates are `(res/size)*2 − 1`, and they always lie in `[-1, 1]`, with
a non-negative pixel count.  (This holds for arbitrarily large frames:
even if an accumulator wrapped, the stored value stays below
`pixel_count · width`.) -/
theorem C7_centroid_formula_and_range (p : Nat → Nat)
    (r : light_source_result_t) (fb : camera_fb_t)
    (hfmt : fb.format = PIXFORMAT_RGB565)
    (hw : 0 < fb.width) (hh : 0 < fb.height)
    (hret : (find_light_source p r fb).ret = 0) :
    ∃ k : Nat,
      (selectBest
        (pass2 fb.width fb.height
          (pass1 fb.width fb.height (binarize fb.width fb.height fb.buf))).blobs
        (pass1 fb.width fb.height
          (binarize fb.width fb.height fb.buf)).next_label).1 = Int.ofNat k ∧
      (find_light_source p r fb).result.pixel_count
        = ((pass2 fb.width fb.height
            (pass1 fb.width fb.height (binarize fb.width fb.height fb.buf))).blobs
              k).pixel_count ∧
      (find_light_source p r fb).result.x
        = ((((pass2 fb.width fb.height
              (pass1 fb.width fb.height (binarize fb.width fb.height fb.buf))).blobs
                k).sum_x /
            ((pass2 fb.width fb.height
              (pass1 fb.width fb.height (binarize fb.width fb.height fb.buf))).blobs
                k).pixel_count : Nat) : ℚ) / (fb.width : ℚ) * 2 - 1 ∧
      (find_light_source p r fb).result.y
        = ((((pass2 fb.width fb.height
              (pass1 fb.width fb.height (binarize fb.width fb.height fb.buf))).blobs
                k).sum_y /
            ((pass2 fb.width fb.height
              (pass1 fb.width fb.height (binarize fb.width fb.height fb.buf))).blobs
                k).pixel_count : Nat) : ℚ) / (fb.height : ℚ) * 2 - 1 ∧
      (-1 : ℚ) ≤ (find_light_source p r fb).result.x ∧
      (find_light_source p r fb).result.x ≤ 1 ∧
      (-1 : ℚ) ≤ (find_light_source p r fb).result.y ∧
      (find_light_source p r fb).result.y ≤ 1 ∧
      0 ≤ (find_light_source p r fb).result.pixel_count := by
  by_cases hbest : (selectBest
      (pass2 fb.width fb.height
        (pass1 fb.width fb.height (binarize fb.width fb.height fb.buf))).blobs
      (pass1 fb.width fb.height
        (binarize fb.width fb.height fb.buf)).next_label).1 = -1
  · exfalso
    have : (find_light_source p r fb).ret = -1 := by
      simp [find_light_source, hfmt, hbest]
    rw [this] at hret
    exact absurd hret (by norm_num)
  · rcases selectBest_spec
        (pass2 fb.width fb.height
          (pass1 fb.width fb.height (binarize fb.width fb.height fb.buf))).blobs
        (pass1 fb.width fb.height
          (binarize fb.width fb.height fb.buf)).next_label
      with ⟨heq, -⟩ | ⟨k, hk1, hk2, hacc, heq, -⟩
    · exact absurd (by rw [heq]) hbest
    · refine ⟨k, by rw [heq], ?_⟩
      have hcnt3 : 3 ≤ ((pass2 fb.width fb.height
          (pass1 fb.width fb.height (binarize fb.width fb.height fb.buf))).blobs
            k).pixel_count := blobAccept_count hacc
      have htoNat : ((selectBest
          (pass2 fb.width fb.height
            (pass1 fb.width fb.height (binarize fb.width fb.height fb.buf))).blobs
          (pass1 fb.width fb.height
            (binarize fb.width fb.height fb.buf)).next_label).1).toNat = k := by
        rw [heq]
        rfl
      have hout : (find_light_source p r fb).result =
          { x := ((((pass2 fb.width fb.height
                (pass1 fb.width fb.height (binarize fb.width fb.height fb.buf))).blobs
                  k).sum_x /
              ((pass2 fb.width fb.height
                (pass1 fb.width fb.height (binarize fb.width fb.height fb.buf))).blobs
                  k).pixel_count : Nat) : ℚ) / (fb.width : ℚ) * 2 - 1,
            y := ((((pass2 fb.width fb.height
                (pass1 fb.width fb.height (binarize fb.width fb.height fb.buf))).blobs
                  k).sum_y /
              ((pass2 fb.width fb.height
                (pass1 fb.width fb.height (binarize fb.width fb.height fb.buf))).blobs
                  k).pixel_count : Nat) : ℚ) / (fb.height : ℚ) * 2 - 1,
            pixel_count := ((pass2 fb.width fb.height
              (pass1 fb.width fb.height (binarize fb.width fb.height fb.buf))).blobs
                k).pixel_count } := by
        simp only [find_light_source, hfmt]
        rw [if_neg (by simp [PIXFORMAT_RGB565])]
        rw [if_neg hbest, htoNat]
      obtain ⟨hbx, hby⟩ := pass2_sum_bounds fb.width fb.height
        (pass1 fb.width fb.height (binarize fb.width fb.height fb.buf)) k
      have hresx : ((pass2 fb.width fb.height
            (pass1 fb.width fb.height (binarize fb.width fb.height fb.buf))).blobs
              k).sum_x /
          ((pass2 fb.width fb.height
            (pass1 fb.width fb.height (binarize fb.width fb.height fb.buf))).blobs
              k).pixel_count ≤ fb.width - 1 := by
        refine le_trans (Nat.div_le_div_right hbx) ?_
        rw [Nat.mul_div_cancel_left _ (by omega : 0 < ((pass2 fb.width fb.height
          (pass1 fb.width fb.height (binarize fb.width fb.height fb.buf))).blobs
            k).pixel_count)]
      have hresy : ((pass2 fb.width fb.height
            (pass1 fb.width fb.height (binarize fb.width fb.height fb.buf))).blobs
              k).sum_y /
          ((pass2 fb.width fb.height
            (pass1 fb.width fb.height (binarize fb.width fb.height fb.buf))).blobs
              k).pixel_count ≤ fb.height - 1 := by
        refine le_trans (Nat.div_le_div_right hby) ?_
        rw [Nat.mul_div_cancel_left _ (by omega : 0 < ((pass2 fb.width fb.height
          (pass1 fb.width fb.height (binarize fb.width fb.height fb.buf))).blobs
            k).pixel_count)]
      rw [hout]
      have hwq : (0 : ℚ) < (fb.width : ℚ) := by exact_mod_cast hw
      have hhq : (0 : ℚ) < (fb.height : ℚ) := by exact_mod_cast hh
      have hxq : (0 : ℚ) ≤ ((((pass2 fb.width fb.height
          (pass1 fb.width fb.height (binarize fb.width fb.height fb.buf))).blobs
            k).sum_x /
          ((pass2 fb.width fb.height
            (pass1 fb.width fb.height (binarize fb.width fb.height fb.buf))).blobs
              k).pixel_count : Nat) : ℚ) / (fb.width : ℚ) := by positivity
      have hyq : (0 : ℚ) ≤ ((((pass2 fb.width fb.height
          (pass1 fb.width fb.height (binarize fb.width fb.height fb.buf))).blobs
            k).sum_y /
          ((pass2 fb.width fb.height
            (pass1 fb.width fb.height (binarize fb.width fb.height fb.buf))).blobs
              k).pixel_count : Nat) : ℚ) / (fb.height : ℚ) := by positivity
      have hxq1 : ((((pass2 fb.width fb.height
          (pass1 fb.width fb.height (binarize fb.width fb.height fb.buf))).blobs
            k).sum_x /
          ((pass2 fb.width fb.height
            (pass1 fb.width fb.height (binarize fb.width fb.height fb.buf))).blobs
              k).pixel_count : Nat) : ℚ) / (fb.width : ℚ) ≤ 1 := by
        rw [div_le_one hwq]
        exact_mod_cast le_trans hresx (by omega)
      have hyq1 : ((((pass2 fb.width fb.height
          (pass1 fb.width fb.height (binarize fb.width fb.height fb.buf))).blobs
            k).sum_y /
          ((pass2 fb.width fb.height
            (pass1 fb.width fb.height (binarize fb.width fb.height fb.buf))).blobs
              k).pixel_count : Nat) : ℚ) / (fb.height : ℚ) ≤ 1 := by
        rw [div_le_one hhq]
        exact_mod_cast le_trans hresy (by omega)
      refine ⟨rfl, rfl, rfl, ?_, ?_, ?_, ?_, by omega⟩
      · linarith
      · linarith
      · linarith
      · linarith

/-- Witness for C7 at a concrete 2×2 all-bright frame (one blob of four
pixels, circularity 1). -/
theorem C7_centroid_formula_and_range_witness :
    ((⟨PIXFORMAT_RGB565, 2, 2, [0xFFFF, 0xFFFF, 0xFFFF, 0xFFFF]⟩ :
        camera_fb_t).format = PIXFORMAT_RGB565) ∧
    (0 < (2 : Nat)) ∧
    ((find_light_source dsu_init ⟨0, 0, 0⟩
        ⟨PIXFORMAT_RGB565, 2, 2, [0xFFFF, 0xFFFF, 0xFFFF, 0xFFFF]⟩).ret = 0) ∧
    ((-1 : ℚ) ≤ (find_light_source dsu_init ⟨0, 0, 0⟩
        ⟨PIXFORMAT_RGB565, 2, 2, [0xFFFF, 0xFFFF, 0xFFFF, 0xFFFF]⟩).result.x ∧
      (find_light_source dsu_init ⟨0, 0, 0⟩
        ⟨PIXFORMAT_RGB565, 2, 2, [0xFFFF, 0xFFFF, 0xFFFF, 0xFFFF]⟩).result.x ≤ 1) := by
  have hnext : (pass1 2 2
      (binarize 2 2 [0xFFFF, 0xFFFF, 0xFFFF, 0xFFFF])).next_label = 2 := by
    decide
  have hblob : (pass2 2 2 (pass1 2 2
      (binarize 2 2 [0xFFFF, 0xFFFF, 0xFFFF, 0xFFFF]))).blobs 1
      = ⟨1, 4, 2, 2, 2, 2, 1⟩ := by decide
  have hcirc : circOK (⟨1, 4, 2, 2, 2, 2, 1⟩ : blob_info_t) = true := by
    simp only [circOK, covA, covD, mu_xx, mu_yy, mu_xy, Bool.and_eq_true,
      Bool.or_eq_true, decide_eq_true_eq]
    norm_num
  have hacc : blobAccept (⟨1, 4, 2, 2, 2, 2, 1⟩ : blob_info_t) = true := by
    simp [blobAccept, hcirc]
  have hsel : selectBest
      (pass2 2 2 (pass1 2 2
        (binarize 2 2 [0xFFFF, 0xFFFF, 0xFFFF, 0xFFFF]))).blobs
      (pass1 2 2
        (binarize 2 2 [0xFFFF, 0xFFFF, 0xFFFF, 0xFFFF])).next_label
      = (Int.ofNat 1, 4) := by
    rw [hnext]
    simp only [selectBest, show (2 : Nat) - 1 = 1 from rfl,
      show List.range' 1 1 = [1] from rfl, List.foldl_cons, List.foldl_nil,
      selStep, hblob, hacc]
    norm_num
  have hret : (find_light_source dsu_init ⟨0, 0, 0⟩
      ⟨PIXFORMAT_RGB565, 2, 2, [0xFFFF, 0xFFFF, 0xFFFF, 0xFFFF]⟩).ret = 0 := by
    have hne : ¬ ((⟨PIXFORMAT_RGB565, 2, 2,
        [0xFFFF, 0xFFFF, 0xFFFF, 0xFFFF]⟩ : camera_fb_t).format
          ≠ PIXFORMAT_RGB565) := by decide
    simp only [find_light_source, if_neg hne]
    rw [hsel]
    norm_num
  have h := C7_centroid_formula_and_range dsu_init ⟨0, 0, 0⟩
    ⟨PIXFORMAT_RGB565, 2, 2, [0xFFFF, 0xFFFF, 0xFFFF, 0xFFFF]⟩
    rfl (by decide) (by decide) hret
  obtain ⟨k, -, -, -, -, hx1, hx2, -⟩ := h
  exact ⟨rfl, by decide, hret, hx1, hx2⟩

/-- C8: on any full-size RGB565 frame — in particular one with more
foreground regions than `MAX_LABELS` — the pipeline stays in bounds: every
pixel value after the first pass, and after the aggregation pass, is a
label below `MAX_LABELS` (so every index into the 256-entry parent and
blob arrays is in range); and the run's entire outcome equals that on the
frame with every capacity-dropped pixel blacked out, so within-capacity
blobs get exactly the statistics and selection outcome they would get in a
frame without the excess regions. -/
theorem C8_capacity_overflow_graceful (p : Nat → Nat)
    (r : light_source_result_t) (fb : camera_fb_t)
    (hfmt : fb.format = PIXFORMAT_RGB565)
    (hlen : fb.buf.length = fb.width * fb.height) :
    (∀ v ∈ (pass1 fb.width fb.height
        (binarize fb.width fb.height fb.buf)).pixels, v < MAX_LABELS) ∧
    (∀ v ∈ (pass2 fb.width fb.height (pass1 fb.width fb.height
        (binarize fb.width fb.height fb.buf))).pixels, v < MAX_LABELS) ∧
    find_light_source p r (maskDropped fb) = find_light_source p r fb := by
  refine ⟨pass1_pixel_values _ _ _ hlen, pass2_pixel_values _ _ _ hlen, ?_⟩
  have hp1 := pass1_maskDropped fb hlen
  have hfm : (maskDropped fb).format = fb.format := rfl
  have hw : (maskDropped fb).width = fb.width := rfl
  have hh : (maskDropped fb).height = fb.height := rfl
  have h1 : ¬((maskDropped fb).format ≠ PIXFORMAT_RGB565) := by
    rw [hfm, hfmt]
    intro hc
    exact hc rfl
  have h2 : ¬(fb.format ≠ PIXFORMAT_RGB565) := by
    rw [hfmt]
    intro hc
    exact hc rfl
  simp only [find_light_source]
  rw [if_neg h1, if_neg h2, hw, hh, hp1]

theorem C8_capacity_overflow_graceful_witness :
    (⟨0, 2, 1, [0xFFFF, 0]⟩ : camera_fb_t).format = PIXFORMAT_RGB565 ∧
    ([0xFFFF, 0] : List Nat).length = 2 * 1 ∧
    find_light_source dsu_init ⟨0, 0, 0⟩
        (maskDropped ⟨0, 2, 1, [0xFFFF, 0]⟩)
      = find_light_source dsu_init ⟨0, 0, 0⟩ ⟨0, 2, 1, [0xFFFF, 0]⟩ :=
  ⟨rfl, rfl, (C8_capacity_overflow_graceful dsu_init ⟨0, 0, 0⟩
    ⟨0, 2, 1, [0xFFFF, 0]⟩ rfl rfl).2.2⟩

end EyesModel
